import Mathlib

/-!
pureg4: size arithmetic, bit cursor, MMR header decoder, body decoder.

A shallow embedding of `src/pureg4.c`.

Conventions of the embedding.

* Machine integers are natural numbers; the width of `size_t` is a parameter,
  given by its largest value `SIZE_MAX`.  `uint32_t` arithmetic is reduced
  modulo `2 ^ 32`, stores into `uint8_t` and `uint16_t` fields modulo `2 ^ 8`
  and `2 ^ 16`.  `int` is taken to be 32 bits wide.  Arguments of type `uint8_t`,
  `uint16_t` and the bytes of a buffer are natural numbers; theorems that depend
  on their range say so in a hypothesis.
* A pointer to a byte buffer is the list of the bytes it points to; a null
  pointer is `none`.  A pointer into a buffer is an index into the list.  The
  length of the list is the number of bytes that may be accessed; it is kept
  apart from the `buf_size` argument.
* Executions that the C standard leaves undefined (division by zero, access
  outside the buffer, shift counts out of range) end in `Except.error`.
* The loop of `ArrayReadToUInt32` carries a fuel argument; `ArrayReadToUInt32_fuel`
  shows that the fuel it is given never runs out.
-/

namespace Pureg4

/-- Reasons for which a run of the C code yields no value. -/
inductive Fault where
  | div_by_zero
  | out_of_bounds
  | bad_shift
  | out_of_fuel
  deriving DecidableEq, Repr

/-- The cursor record `array_t`.  `buf` is the borrowed buffer, `curptr` the
offset of the current pointer from `buf`. -/
structure array_t where
  buf : List Nat
  curptr : Nat
  buf_size : Nat
  byte_offset : Nat
  bit_offset : Nat
  deriving DecidableEq, Repr

/-- The output record `pureg4_mmrheader_t`. -/
structure pureg4_mmrheader_t where
  width : Nat
  height : Nat
  flags : Nat
  deriving DecidableEq, Repr

/-- Every element of the list is the value of a `uint8_t`. -/
def Bytes (l : List Nat) : Prop := ∀ b ∈ l, b < 256

instance (l : List Nat) : Decidable (Bytes l) := by
  unfold Bytes; infer_instance

/-- Subtraction `a - b` in `size_t`, wrapping modulo `SIZE_MAX + 1`. -/
def size_sub (SIZE_MAX a b : Nat) : Nat := (a + (SIZE_MAX + 1) - b) % (SIZE_MAX + 1)

def PUREG4_MMR_FLAG_MIN_IS_BLACK : Nat := 0x1

def PUREG4_MMR_FLAG_STRIPPED : Nat := 0x2

def pureg4_mmrheader_size : Nat := 8

def pureg4_mmrheader_sign : Nat := 0x4d4d52

/-- The function `pureg4GetDecodedImageSize`.  `SIZE_MAX / width` is undefined for
`width = 0`. -/
def pureg4GetDecodedImageSize (SIZE_MAX width height : Nat) : Except Fault Nat :=
  if width = 0 then .error .div_by_zero
  else if SIZE_MAX / width < height then .ok 0
  else .ok ((width * height) % (SIZE_MAX + 1))

/-- The function `pureg4GetEncodedImageSize`. -/
def pureg4GetEncodedImageSize (SIZE_MAX width height : Nat) : Except Fault Nat :=
  if width = 0 then .error .div_by_zero
  else if SIZE_MAX / width < height then .ok 0
  else
    let body_size := (width * height) % (SIZE_MAX + 1)
    if size_sub SIZE_MAX SIZE_MAX pureg4_mmrheader_size < body_size then .ok 0
    else .ok ((body_size + pureg4_mmrheader_size) % (SIZE_MAX + 1))

/-- The function `ArrayInit`: the record is zeroed, then `buf`, `curptr` and
`buf_size` are set. -/
def ArrayInit (buf : List Nat) (buf_size : Nat) : array_t :=
  { buf := buf, curptr := 0, buf_size := buf_size, byte_offset := 0, bit_offset := 0 }

/-- The function `ArrayFullOffset`. -/
def ArrayFullOffset (SIZE_MAX : Nat) (array : array_t) : Nat :=
  if array.bit_offset ≠ 0 then (array.byte_offset + 1) % (SIZE_MAX + 1) else array.byte_offset

/-- The `while` loop of `ArrayReadToUInt32`; one unit of fuel per iteration.
`bits` is the remaining bit count and `ret` the accumulator.  The shifts of an
iteration are defined when `bits_to_read < 31` (for `ret << bits_to_read` and
`1 << bits_to_read`) and `bit_offset < 32` (for `*curptr >> bit_offset`);
`bit_offset += bits_to_read` then stays below 64 and `byte_offset++` at most
`buf_size`, so neither wraps. -/
def ArrayReadLoop (SIZE_MAX : Nat) (fuel : Nat) (array : array_t) (bits ret : Nat) :
    Except Fault (Nat × array_t) :=
  match fuel with
  | 0 =>
    if bits = 0 ∨ array.buf_size ≤ array.byte_offset then .ok (ret, array)
    else .error .out_of_fuel
  | fuel + 1 =>
    if bits = 0 then .ok (ret, array)
    else if array.buf_size ≤ array.byte_offset then .ok (ret, array)
    else
      let bits_to_read :=
        if size_sub SIZE_MAX 8 array.bit_offset < bits then size_sub SIZE_MAX 8 array.bit_offset
        else bits
      if 31 ≤ bits_to_read ∨ 32 ≤ array.bit_offset then .error .bad_shift
      else
        match array.buf[array.curptr]? with
        | none => .error .out_of_bounds
        | some byte =>
          let ret1 := (ret <<< bits_to_read) % 2 ^ 32
          let ret2 :=
            (ret1 + ((byte >>> array.bit_offset) &&& ((1 <<< bits_to_read) - 1))) % 2 ^ 32
          let bit_offset := array.bit_offset + bits_to_read
          let array1 : array_t :=
            if bit_offset > 7 then
              { array with
                bit_offset := 0, curptr := array.curptr + 1, byte_offset := array.byte_offset + 1 }
            else { array with bit_offset := bit_offset }
          ArrayReadLoop SIZE_MAX fuel array1 (bits - bits_to_read) ret2

/-- The function `ArrayReadToUInt32`: the value read and the cursor after the read.
An iteration that reads no bit moves to the next byte, and the iteration after it
reads at least one bit, so `2 * bits` iterations are enough. -/
def ArrayReadToUInt32 (SIZE_MAX : Nat) (array : array_t) (bits : Nat) :
    Except Fault (Nat × array_t) :=
  if bits = 0 ∨ bits > 32 then .ok (0, array)
  else ArrayReadLoop SIZE_MAX (2 * bits) array bits 0

/-- The function `pureg4DecodeMMRHeader`: the return value and the caller's header
record after the call. -/
def pureg4DecodeMMRHeader (SIZE_MAX : Nat) (buf : Option (List Nat)) (buf_size : Nat)
    (mmrheader : Option pureg4_mmrheader_t) :
    Except Fault (Nat × Option pureg4_mmrheader_t) :=
  match buf, mmrheader with
  | some b, some hdr =>
    if buf_size < pureg4_mmrheader_size then .ok (0, some hdr)
    else
      match ArrayReadToUInt32 SIZE_MAX (ArrayInit b buf_size) 24 with
      | .error e => .error e
      | .ok (sign, a1) =>
        if sign ≠ pureg4_mmrheader_sign then .ok (0, some hdr)
        else
          match ArrayReadToUInt32 SIZE_MAX a1 8 with
          | .error e => .error e
          | .ok (flags, a2) =>
            let hdr1 := { hdr with flags := flags % 2 ^ 8 }
            match ArrayReadToUInt32 SIZE_MAX a2 16 with
            | .error e => .error e
            | .ok (width, a3) =>
              let hdr2 := { hdr1 with width := width % 2 ^ 16 }
              match ArrayReadToUInt32 SIZE_MAX a3 16 with
              | .error e => .error e
              | .ok (height, a4) =>
                let hdr3 := { hdr2 with height := height % 2 ^ 16 }
                if ArrayFullOffset SIZE_MAX a4 ≠ pureg4_mmrheader_size then .ok (0, some hdr3)
                else .ok (pureg4_mmrheader_size, some hdr3)
  | _, _ => .ok (0, mmrheader)

/-- The call `memset(p, 0, n)` on the region `img`. -/
def memset_zero (img : List Nat) (n : Nat) : Except Fault (List Nat) :=
  if n ≤ img.length then .ok (List.replicate n 0 ++ img.drop n) else .error .out_of_bounds

/-- The `for` loop of `pureg4DecodeImage`, with `k` iterations left.  `p` is the
offset of the pointer `p` from `imgbuf`; the loop body does not change it. -/
def invert_loop (p : Nat) : Nat → List Nat → Except Fault (List Nat)
  | 0, img => .ok img
  | k + 1, img =>
    match img[p]? with
    | none => .error .out_of_bounds
    | some v => invert_loop p k (img.set p ((255 - v) % 2 ^ 8))

/-- The function `pureg4DecodeImage`: the return value and the raster after the
call.  The body of the function never reads through `buf`. -/
def pureg4DecodeImage (SIZE_MAX : Nat) (_buf : Option (List Nat))
    (buf_size width height flags : Nat) (imgbuf : List Nat) : Except Fault (Nat × List Nat) :=
  if width = 0 then .error .div_by_zero
  else if SIZE_MAX / width < height then .ok (0, imgbuf)
  else if flags &&& (2 ^ 32 - 1 - PUREG4_MMR_FLAG_MIN_IS_BLACK) ≠ 0 then .ok (0, imgbuf)
  else
    match memset_zero imgbuf ((width * height) % (SIZE_MAX + 1)) with
    | .error e => .error e
    | .ok img0 =>
      if flags &&& PUREG4_MMR_FLAG_MIN_IS_BLACK ≠ 0 then
        match invert_loop 0 ((width * height) % (SIZE_MAX + 1)) img0 with
        | .error e => .error e
        | .ok img1 => .ok (buf_size, img1)
      else .ok (buf_size, img0)

/-- The accumulator of `ArrayReadToUInt32` after whole bytes have been shifted in,
one per iteration, starting from `ret`. -/
def be_accum (ret : Nat) (bytes : List Nat) : Nat :=
  bytes.foldl (fun r b => (r * 256 + b % 256) % 2 ^ 32) ret

/-- The cursor `array` moved forward by `n` whole bytes. -/
def advance_bytes (array : array_t) (n : Nat) : array_t :=
  { array with curptr := array.curptr + n, byte_offset := array.byte_offset + n }

/-- The eight header bytes that `EncodeImageForTest` (tests/test_dec.c) writes in
front of the body: the signature `'M'`, `'M'`, `'R'`, the flags byte, then width
and height, high byte first.  The test writes `0` as flags byte; here the byte is
a parameter. -/
def EncodeImageForTest_header (flags width height : Nat) : List Nat :=
  [0x4D, 0x4D, 0x52, flags, (width / 256) % 256, width % 256, (height / 256) % 256,
    height % 256]

/-- The number of bits one iteration of the loop of `ArrayReadToUInt32` takes from
the current byte (the local variable `bits_to_read`). -/
def bits_to_read (SIZE_MAX : Nat) (array : array_t) (bits : Nat) : Nat :=
  if size_sub SIZE_MAX 8 array.bit_offset < bits then size_sub SIZE_MAX 8 array.bit_offset
  else bits

/-- The cursor after one iteration of the loop of `ArrayReadToUInt32` that took `k`
bits. -/
def cursor_step (array : array_t) (k : Nat) : array_t :=
  if array.bit_offset + k > 7 then
    { array with
      bit_offset := 0, curptr := array.curptr + 1, byte_offset := array.byte_offset + 1 }
  else { array with bit_offset := array.bit_offset + k }

/-- The accumulator after one iteration of the loop of `ArrayReadToUInt32` that
took `k` bits of `byte` at `bit_offset`. -/
def accum_step (ret byte bit_offset k : Nat) : Nat :=
  ((ret <<< k) % 2 ^ 32 + ((byte >>> bit_offset) &&& ((1 <<< k) - 1))) % 2 ^ 32

/-- The consistency conditions of a cursor over a readable buffer: the bit
position is one of 0..7, the current pointer is `buf + byte_offset`, the byte
position is at most `buf_size`, the `buf_size` bytes of the buffer may be accessed,
and a byte that is consumed in part lies inside the buffer. -/
def cursor_ok (a : array_t) : Prop :=
  a.bit_offset ≤ 7 ∧ a.curptr = a.byte_offset ∧ a.byte_offset ≤ a.buf_size ∧
    a.buf_size ≤ a.buf.length ∧ (a.bit_offset ≠ 0 → a.byte_offset < a.buf_size)

instance (a : array_t) : Decidable (cursor_ok a) := by
  unfold cursor_ok; infer_instance

/-- The position of the cursor, counted in bits from the start of the buffer. -/
def bit_position (a : array_t) : Nat := 8 * a.byte_offset + a.bit_offset

/-- Successive calls of `ArrayReadToUInt32` on one cursor, one call for each bit
count of the list: the values read, in order, and the cursor after the last call. -/
def ArrayReadFields (SIZE_MAX : Nat) : array_t → List Nat → Except Fault (List Nat × array_t)
  | a, [] => .ok ([], a)
  | a, n :: ns =>
    match ArrayReadToUInt32 SIZE_MAX a n with
    | .error e => .error e
    | .ok (v, a1) =>
      match ArrayReadFields SIZE_MAX a1 ns with
      | .error e => .error e
      | .ok (vs, a2) => .ok (v :: vs, a2)

/-- The cursor `a` is the state after `ArrayInit buf buf_size` and some sequence of
calls of `ArrayReadToUInt32`, with any bit counts. -/
def Reachable (SIZE_MAX : Nat) (buf : List Nat) (buf_size : Nat) (a : array_t) : Prop :=
  ∃ widths vals, ArrayReadFields SIZE_MAX (ArrayInit buf buf_size) widths = .ok (vals, a)

/-- The loop of `ArrayReadToUInt32` with the accumulator computed over unbounded
integers: the shifted accumulator is not reduced modulo `2 ^ 32`, and the new bits
are combined with a bitwise OR instead of an addition.  Everything else is the loop
`ArrayReadLoop`. -/
def ArrayReadLoopWide (SIZE_MAX : Nat) (fuel : Nat) (array : array_t) (bits ret : Nat) :
    Except Fault (Nat × array_t) :=
  match fuel with
  | 0 =>
    if bits = 0 ∨ array.buf_size ≤ array.byte_offset then .ok (ret, array)
    else .error .out_of_fuel
  | fuel + 1 =>
    if bits = 0 then .ok (ret, array)
    else if array.buf_size ≤ array.byte_offset then .ok (ret, array)
    else
      let k := bits_to_read SIZE_MAX array bits
      if 31 ≤ k ∨ 32 ≤ array.bit_offset then .error .bad_shift
      else
        match array.buf[array.curptr]? with
        | none => .error .out_of_bounds
        | some byte =>
          ArrayReadLoopWide SIZE_MAX fuel (cursor_step array k) (bits - k)
            ((ret <<< k) ||| ((byte >>> array.bit_offset) &&& ((1 <<< k) - 1)))

/-- The function `ArrayReadToUInt32` with the accumulator computed over unbounded
integers. -/
def ArrayReadToUInt32Wide (SIZE_MAX : Nat) (array : array_t) (bits : Nat) :
    Except Fault (Nat × array_t) :=
  if bits = 0 ∨ bits > 32 then .ok (0, array)
  else ArrayReadLoopWide SIZE_MAX (2 * bits) array bits 0

/-- The value `v` written as a string of `n` bits, most significant bit first. -/
def field_bits : Nat → Nat → List Bool
  | 0, _ => []
  | n + 1, v => v.testBit n :: field_bits n v

/-- The bit sequence of a buffer: the bytes in order, each byte most significant
bit first. -/
def buffer_bits : List Nat → List Bool
  | [] => []
  | b :: bs => field_bits 8 b ++ buffer_bits bs

/-- The fields read, field `i` written as a string of `n_i` bits, most significant
bit first, and the strings concatenated in reading order. -/
def reassemble : List Nat → List Nat → List Bool
  | n :: ns, v :: vs => field_bits n v ++ reassemble ns vs
  | _, _ => []

deriving instance DecidableEq for Except

theorem size_sub_eq (SIZE_MAX a b : Nat) (hb : b ≤ a) (ha : a ≤ SIZE_MAX) :
    size_sub SIZE_MAX a b = a - b := by
  unfold size_sub
  have h : a + (SIZE_MAX + 1) - b = (a - b) + (SIZE_MAX + 1) := by omega
  rw [h, Nat.add_mod_right, Nat.mod_eq_of_lt (by omega)]

theorem ArrayReadLoop_step (SIZE_MAX fuel : Nat) (a : array_t) (bits ret : Nat)
    (h0 : bits ≠ 0) (h1 : ¬ a.buf_size ≤ a.byte_offset) :
    ArrayReadLoop SIZE_MAX (fuel + 1) a bits ret =
      if 31 ≤ bits_to_read SIZE_MAX a bits ∨ 32 ≤ a.bit_offset then .error .bad_shift
      else
        match a.buf[a.curptr]? with
        | none => .error .out_of_bounds
        | some byte =>
          ArrayReadLoop SIZE_MAX fuel (cursor_step a (bits_to_read SIZE_MAX a bits))
            (bits - bits_to_read SIZE_MAX a bits)
            (accum_step ret byte a.bit_offset (bits_to_read SIZE_MAX a bits)) := by
  rw [ArrayReadLoop]
  simp only [h0, h1, if_false]
  rfl

theorem ArrayReadLoop_fuel (SIZE_MAX : Nat) (h8 : 8 ≤ SIZE_MAX) :
    ∀ (fuel : Nat) (a : array_t) (bits ret : Nat),
      2 * bits ≤ fuel + (if size_sub SIZE_MAX 8 a.bit_offset = 0 then 0 else 1) →
      ArrayReadLoop SIZE_MAX fuel a bits ret ≠ .error .out_of_fuel := by
  intro fuel
  induction fuel with
  | zero =>
    intro a bits ret h
    have hb : bits = 0 := by split at h <;> omega
    simp [ArrayReadLoop, hb]
  | succ fuel ih =>
    intro a bits ret h
    by_cases h0 : bits = 0
    · simp [ArrayReadLoop, h0]
    by_cases h1 : a.buf_size ≤ a.byte_offset
    · simp [ArrayReadLoop, h0, h1]
    rw [ArrayReadLoop_step SIZE_MAX fuel a bits ret h0 h1]
    split
    · simp
    · split
      · simp
      · apply ih
        have h80 : size_sub SIZE_MAX 8 0 = 8 := size_sub_eq SIZE_MAX 8 0 (by omega) h8
        by_cases hs : size_sub SIZE_MAX 8 a.bit_offset = 0
        · have hbo : 8 ≤ a.bit_offset := by
            by_contra hc
            have := size_sub_eq SIZE_MAX 8 a.bit_offset (by omega) h8
            omega
          have hk : bits_to_read SIZE_MAX a bits = 0 := by
            unfold bits_to_read
            rw [hs, if_pos (by omega)]
          have hc : (cursor_step a (bits_to_read SIZE_MAX a bits)).bit_offset = 0 := by
            unfold cursor_step
            rw [hk, if_pos (by omega)]
          rw [hc, h80, hk]
          rw [if_pos hs] at h
          simp only [Nat.reduceEqDiff, if_false]
          omega
        · have hk : 1 ≤ bits_to_read SIZE_MAX a bits := by
            unfold bits_to_read
            split <;> omega
          rw [if_neg hs] at h
          split <;> omega

theorem ArrayReadToUInt32_fuel (SIZE_MAX : Nat) (h8 : 8 ≤ SIZE_MAX) (a : array_t) (bits : Nat) :
    ArrayReadToUInt32 SIZE_MAX a bits ≠ .error .out_of_fuel := by
  unfold ArrayReadToUInt32
  split
  · simp
  · exact ArrayReadLoop_fuel SIZE_MAX h8 (2 * bits) a bits 0 (by split <;> omega)

theorem ArrayReadLoop_byte (SIZE_MAX : Nat) (h8 : 8 ≤ SIZE_MAX) (fuel : Nat) (a : array_t)
    (bits ret byte : Nat) (hbit : a.bit_offset = 0) (hoff : a.byte_offset < a.buf_size)
    (hget : a.buf[a.curptr]? = some byte) (hbits : 8 ≤ bits) :
    ArrayReadLoop SIZE_MAX (fuel + 1) a bits ret =
      ArrayReadLoop SIZE_MAX fuel
        { a with bit_offset := 0, curptr := a.curptr + 1, byte_offset := a.byte_offset + 1 }
        (bits - 8) ((ret * 256 + byte % 256) % 2 ^ 32) := by
  have hsub : size_sub SIZE_MAX 8 a.bit_offset = 8 := by
    rw [hbit, size_sub_eq SIZE_MAX 8 0 (by omega) h8]
  have hbtr : (if 8 < bits then 8 else bits) = 8 := by
    split <;> omega
  have hmask : byte &&& 255 = byte % 256 := Nat.and_pow_two_sub_one_eq_mod byte 8
  rw [ArrayReadLoop]
  have h0 : ¬ bits = 0 := by omega
  have h1 : ¬ a.buf_size ≤ a.byte_offset := by omega
  simp only [h0, h1, if_false, hsub, hbtr, hget]
  simp [hbit, Nat.shiftLeft_eq, hmask]

theorem ArrayReadLoop_bytes (SIZE_MAX : Nat) (h8 : 8 ≤ SIZE_MAX) :
    ∀ (n fuel : Nat) (a : array_t) (ret : Nat), a.bit_offset = 0 →
      a.byte_offset + n ≤ a.buf_size → a.curptr + n ≤ a.buf.length → n ≤ fuel →
      ArrayReadLoop SIZE_MAX fuel a (8 * n) ret =
        .ok (be_accum ret ((a.buf.drop a.curptr).take n), advance_bytes a n) := by
  intro n
  induction n with
  | zero =>
    intro fuel a ret _ _ _ _
    cases fuel <;> simp [ArrayReadLoop, be_accum, advance_bytes]
  | succ n ih =>
    intro fuel a ret hbit hoff hptr hfuel
    obtain ⟨f, rfl⟩ : ∃ f, fuel = f + 1 := ⟨fuel - 1, by omega⟩
    have hlt : a.curptr < a.buf.length := by omega
    have hget : a.buf[a.curptr]? = some a.buf[a.curptr] := List.getElem?_eq_getElem hlt
    rw [ArrayReadLoop_byte SIZE_MAX h8 f a (8 * (n + 1)) ret _ hbit (by omega) hget (by omega)]
    have hbits : 8 * (n + 1) - 8 = 8 * n := by omega
    rw [hbits, ih f _ _ rfl (by simp only; omega) (by simp only; omega) (by omega)]
    have hdrop : a.buf.drop a.curptr = a.buf[a.curptr] :: a.buf.drop (a.curptr + 1) :=
      List.drop_eq_getElem_cons hlt
    simp only [hdrop, List.take_succ_cons, be_accum, List.foldl_cons, advance_bytes]
    congr 2
    · simp only [array_t.mk.injEq, true_and]
      omega

theorem ArrayReadToUInt32_bytes (SIZE_MAX : Nat) (h8 : 8 ≤ SIZE_MAX) (n bits : Nat)
    (a : array_t) (hn : 1 ≤ n) (hn4 : n ≤ 4) (hbits : bits = 8 * n) (hbit : a.bit_offset = 0)
    (hoff : a.byte_offset + n ≤ a.buf_size) (hptr : a.curptr + n ≤ a.buf.length) :
    ArrayReadToUInt32 SIZE_MAX a bits =
      .ok (be_accum 0 ((a.buf.drop a.curptr).take n), advance_bytes a n) := by
  subst hbits
  unfold ArrayReadToUInt32
  rw [if_neg (by omega)]
  exact ArrayReadLoop_bytes SIZE_MAX h8 n _ a 0 hbit hoff hptr (by omega)

theorem pureg4DecodeMMRHeader_eight (SIZE_MAX : Nat) (h8 : 8 ≤ SIZE_MAX)
    (b0 b1 b2 b3 b4 b5 b6 b7 : Nat) (rest : List Nat) (buf_size : Nat)
    (hsz : 8 ≤ buf_size) (hdr : pureg4_mmrheader_t) :
    pureg4DecodeMMRHeader SIZE_MAX (some (b0 :: b1 :: b2 :: b3 :: b4 :: b5 :: b6 :: b7 :: rest))
        buf_size (some hdr) =
      if be_accum 0 [b0, b1, b2] ≠ pureg4_mmrheader_sign then .ok (0, some hdr)
      else .ok (8, some { flags := be_accum 0 [b3] % 2 ^ 8,
                          width := be_accum 0 [b4, b5] % 2 ^ 16,
                          height := be_accum 0 [b6, b7] % 2 ^ 16 }) := by
  have r1 := ArrayReadToUInt32_bytes SIZE_MAX h8 3 24
    (ArrayInit (b0 :: b1 :: b2 :: b3 :: b4 :: b5 :: b6 :: b7 :: rest) buf_size)
    (by omega) (by omega) rfl rfl (by simp only [ArrayInit]; omega)
    (by simp only [ArrayInit, List.length_cons]; omega)
  have r2 := ArrayReadToUInt32_bytes SIZE_MAX h8 1 8
    (advance_bytes (ArrayInit (b0 :: b1 :: b2 :: b3 :: b4 :: b5 :: b6 :: b7 :: rest) buf_size) 3)
    (by omega) (by omega) rfl rfl (by simp only [ArrayInit, advance_bytes]; omega)
    (by simp only [ArrayInit, advance_bytes, List.length_cons]; omega)
  have r3 := ArrayReadToUInt32_bytes SIZE_MAX h8 2 16
    (advance_bytes (advance_bytes
      (ArrayInit (b0 :: b1 :: b2 :: b3 :: b4 :: b5 :: b6 :: b7 :: rest) buf_size) 3) 1)
    (by omega) (by omega) rfl rfl (by simp only [ArrayInit, advance_bytes]; omega)
    (by simp only [ArrayInit, advance_bytes, List.length_cons]; omega)
  have r4 := ArrayReadToUInt32_bytes SIZE_MAX h8 2 16
    (advance_bytes (advance_bytes (advance_bytes
      (ArrayInit (b0 :: b1 :: b2 :: b3 :: b4 :: b5 :: b6 :: b7 :: rest) buf_size) 3) 1) 2)
    (by omega) (by omega) rfl rfl (by simp only [ArrayInit, advance_bytes]; omega)
    (by simp only [ArrayInit, advance_bytes, List.length_cons]; omega)
  unfold pureg4DecodeMMRHeader
  simp only [r1, r2, r3, r4]
  rw [if_neg (by simp only [pureg4_mmrheader_size]; omega)]
  simp [ArrayInit, advance_bytes, ArrayFullOffset, pureg4_mmrheader_size]

theorem be_accum_one (b : Nat) : be_accum 0 [b] = b % 256 := by
  simp only [be_accum, List.foldl_cons, List.foldl_nil]
  omega

theorem be_accum_two (b c : Nat) : be_accum 0 [b, c] = b % 256 * 256 + c % 256 := by
  simp only [be_accum, List.foldl_cons, List.foldl_nil]
  omega

theorem be_accum_three (b c d : Nat) :
    be_accum 0 [b, c, d] = b % 256 * 65536 + c % 256 * 256 + d % 256 := by
  simp only [be_accum, List.foldl_cons, List.foldl_nil]
  omega

theorem exists_eight (l : List Nat) (h : 8 ≤ l.length) :
    ∃ b0 b1 b2 b3 b4 b5 b6 b7 rest, l = b0 :: b1 :: b2 :: b3 :: b4 :: b5 :: b6 :: b7 :: rest := by
  match l, h with
  | b0 :: b1 :: b2 :: b3 :: b4 :: b5 :: b6 :: b7 :: rest, _ =>
    exact ⟨b0, b1, b2, b3, b4, b5, b6, b7, rest, rfl⟩

theorem pureg4DecodeMMRHeader_short (SIZE_MAX : Nat) (buf : List Nat) (buf_size : Nat)
    (hdr : pureg4_mmrheader_t) (hsz : buf_size < 8) :
    pureg4DecodeMMRHeader SIZE_MAX (some buf) buf_size (some hdr) = .ok (0, some hdr) := by
  unfold pureg4DecodeMMRHeader
  simp only [pureg4_mmrheader_size, hsz, if_true]

theorem sign_eq_iff (b0 b1 b2 : Nat) (h0 : b0 < 256) (h1 : b1 < 256) (h2 : b2 < 256) :
    be_accum 0 [b0, b1, b2] = pureg4_mmrheader_sign ↔ b0 = 0x4D ∧ b1 = 0x4D ∧ b2 = 0x52 := by
  rw [be_accum_three]
  unfold pureg4_mmrheader_sign
  omega

/-- C1: for a non-null buffer of byte values and a non-null output record,
`pureg4DecodeMMRHeader` returns 8 exactly when `buf_size ≥ 8` and the buffer starts
with 0x4D, 0x4D, 0x52, and returns 0 in every other case.  The return value is a
function of `buf_size` and of the first three bytes alone.  Only the eight header
bytes have to be readable, and none of them when `buf_size < 8`. -/
theorem pureg4DecodeMMRHeader_return_value (SIZE_MAX : Nat) (hmax : 8 ≤ SIZE_MAX)
    (buf : List Nat) (buf_size : Nat) (hdr : pureg4_mmrheader_t) (hbytes : Bytes buf)
    (hread : 8 ≤ buf_size → 8 ≤ buf.length) :
    ∃ out, pureg4DecodeMMRHeader SIZE_MAX (some buf) buf_size (some hdr) =
      .ok (if 8 ≤ buf_size ∧ buf.take 3 = [0x4D, 0x4D, 0x52] then 8 else 0, out) := by
  by_cases hsz : 8 ≤ buf_size
  · obtain ⟨b0, b1, b2, b3, b4, b5, b6, b7, rest, rfl⟩ := exists_eight buf (hread hsz)
    have h0 : b0 < 256 := hbytes b0 (by simp)
    have h1 : b1 < 256 := hbytes b1 (by simp)
    have h2 : b2 < 256 := hbytes b2 (by simp)
    rw [pureg4DecodeMMRHeader_eight SIZE_MAX hmax b0 b1 b2 b3 b4 b5 b6 b7 rest buf_size hsz hdr]
    by_cases hsig : be_accum 0 [b0, b1, b2] = pureg4_mmrheader_sign
    · have h := (sign_eq_iff b0 b1 b2 h0 h1 h2).mp hsig
      refine ⟨some { flags := be_accum 0 [b3] % 2 ^ 8, width := be_accum 0 [b4, b5] % 2 ^ 16,
                     height := be_accum 0 [b6, b7] % 2 ^ 16 }, ?_⟩
      rw [if_neg (not_not.mpr hsig), if_pos ⟨hsz, by simp [h.1, h.2.1, h.2.2]⟩]
    · have h : ¬ (b0 = 0x4D ∧ b1 = 0x4D ∧ b2 = 0x52) :=
        fun hh => hsig ((sign_eq_iff b0 b1 b2 h0 h1 h2).mpr hh)
      refine ⟨some hdr, ?_⟩
      simp only [ne_eq, hsig, not_false_eq_true, if_true, List.take_succ_cons, List.take_zero,
        List.cons.injEq, and_true]
      rw [if_neg (fun hh => h hh.2)]
  · refine ⟨some hdr, ?_⟩
    rw [pureg4DecodeMMRHeader_short SIZE_MAX buf buf_size hdr (by omega),
      if_neg (fun hh => hsz hh.1)]

/-- Witness of C1: an 8-byte buffer whose signature is shifted by one position is
rejected. -/
theorem pureg4DecodeMMRHeader_return_value_witness :
    Bytes [0x00, 0x4D, 0x4D, 0x52, 0x01, 0x00, 0x04, 0x00] ∧
    ∃ out, pureg4DecodeMMRHeader (2 ^ 64 - 1)
      (some [0x00, 0x4D, 0x4D, 0x52, 0x01, 0x00, 0x04, 0x00]) 8 (some ⟨0, 0, 0⟩) = .ok (0, out) :=
  ⟨by decide, by
    simpa using pureg4DecodeMMRHeader_return_value (2 ^ 64 - 1) (by decide)
      [0x00, 0x4D, 0x4D, 0x52, 0x01, 0x00, 0x04, 0x00] 8 ⟨0, 0, 0⟩ (by decide) (by decide)⟩

/-- C2: for a buffer of at least 8 bytes that starts with 0x4D, 0x4D, 0x52,
`pureg4DecodeMMRHeader` returns 8 and stores `flags = buf[3]`,
`width = 256 * buf[4] + buf[5]` and `height = 256 * buf[6] + buf[7]`. -/
theorem pureg4DecodeMMRHeader_fields (SIZE_MAX : Nat) (hmax : 8 ≤ SIZE_MAX)
    (buf : List Nat) (buf_size : Nat) (hdr : pureg4_mmrheader_t) (hbytes : Bytes buf)
    (hsz : 8 ≤ buf_size) (hlen : 8 ≤ buf.length) (hsig : buf.take 3 = [0x4D, 0x4D, 0x52]) :
    pureg4DecodeMMRHeader SIZE_MAX (some buf) buf_size (some hdr) =
      .ok (8, some { flags := buf[3], width := 256 * buf[4] + buf[5],
                     height := 256 * buf[6] + buf[7] }) := by
  obtain ⟨b0, b1, b2, b3, b4, b5, b6, b7, rest, rfl⟩ := exists_eight buf hlen
  have h0 : b0 < 256 := hbytes b0 (by simp)
  have h1 : b1 < 256 := hbytes b1 (by simp)
  have h2 : b2 < 256 := hbytes b2 (by simp)
  have h3 : b3 < 256 := hbytes b3 (by simp)
  have h4 : b4 < 256 := hbytes b4 (by simp)
  have h5 : b5 < 256 := hbytes b5 (by simp)
  have h6 : b6 < 256 := hbytes b6 (by simp)
  have h7 : b7 < 256 := hbytes b7 (by simp)
  simp only [List.take_succ_cons, List.take_zero, List.cons.injEq, and_true] at hsig
  have hs : be_accum 0 [b0, b1, b2] = pureg4_mmrheader_sign :=
    (sign_eq_iff b0 b1 b2 h0 h1 h2).mpr hsig
  rw [pureg4DecodeMMRHeader_eight SIZE_MAX hmax b0 b1 b2 b3 b4 b5 b6 b7 rest buf_size hsz hdr]
  simp only [ne_eq, hs, not_true_eq_false, if_false, be_accum_one, be_accum_two,
    List.getElem_cons_succ, List.getElem_cons_zero]
  have e3 : b3 % 256 % 2 ^ 8 = b3 := by omega
  have e45 : (b4 % 256 * 256 + b5 % 256) % 2 ^ 16 = 256 * b4 + b5 := by omega
  have e67 : (b6 % 256 * 256 + b7 % 256) % 2 ^ 16 = 256 * b6 + b7 := by omega
  rw [e3, e45, e67]

/-- Witness of C2: the bytes 4D 4D 52 01 00 04 00 03 decode to flags 1, width 4,
height 3, with consumed length 8. -/
theorem pureg4DecodeMMRHeader_fields_witness :
    Bytes [0x4D, 0x4D, 0x52, 0x01, 0x00, 0x04, 0x00, 0x03] ∧
    pureg4DecodeMMRHeader (2 ^ 64 - 1) (some [0x4D, 0x4D, 0x52, 0x01, 0x00, 0x04, 0x00, 0x03]) 8
      (some ⟨0, 0, 0⟩) = .ok (8, some { flags := 1, width := 4, height := 3 }) :=
  ⟨by decide,
    pureg4DecodeMMRHeader_fields (2 ^ 64 - 1) (by decide)
      [0x4D, 0x4D, 0x52, 0x01, 0x00, 0x04, 0x00, 0x03] 8 ⟨0, 0, 0⟩ (by decide) (by decide)
      (by decide) (by decide)⟩

/-- C3: header round trip.  For `flags` in 0..255 and `width`, `height` in
0..65535, the eight header bytes of the test encoder, followed by any body, are
decoded by `pureg4DecodeMMRHeader` to the same `flags`, `width` and `height`, with
return value 8. -/
theorem pureg4DecodeMMRHeader_round_trip (SIZE_MAX : Nat) (hmax : 8 ≤ SIZE_MAX)
    (flags width height : Nat) (body : List Nat) (buf_size : Nat) (hdr : pureg4_mmrheader_t)
    (hf : flags < 256) (hw : width < 65536) (hh : height < 65536) (hsz : 8 ≤ buf_size) :
    pureg4DecodeMMRHeader SIZE_MAX (some (EncodeImageForTest_header flags width height ++ body))
        buf_size (some hdr) =
      .ok (8, some { flags := flags, width := width, height := height }) := by
  unfold EncodeImageForTest_header
  simp only [List.cons_append, List.nil_append]
  rw [pureg4DecodeMMRHeader_eight SIZE_MAX hmax _ _ _ _ _ _ _ _ body buf_size hsz hdr]
  have hs : be_accum 0 [0x4D, 0x4D, 0x52] = pureg4_mmrheader_sign := by decide
  simp only [ne_eq, hs, not_true_eq_false, if_false, be_accum_one, be_accum_two]
  have e3 : flags % 256 % 2 ^ 8 = flags := by omega
  have ew : (width / 256 % 256 % 256 * 256 + width % 256 % 256) % 2 ^ 16 = width := by omega
  have eh : (height / 256 % 256 % 256 * 256 + height % 256 % 256) % 2 ^ 16 = height := by omega
  rw [e3, ew, eh]

/-- Witness of C3: flags 1, width 1024, height 65535 and a two-byte body. -/
theorem pureg4DecodeMMRHeader_round_trip_witness :
    pureg4DecodeMMRHeader (2 ^ 64 - 1)
        (some (EncodeImageForTest_header 1 1024 65535 ++ [0xAB, 0xCD])) 10 (some ⟨0, 0, 0⟩) =
      .ok (8, some { flags := 1, width := 1024, height := 65535 }) :=
  pureg4DecodeMMRHeader_round_trip (2 ^ 64 - 1) (by decide) 1 1024 65535 [0xAB, 0xCD] 10
    ⟨0, 0, 0⟩ (by decide) (by decide) (by decide) (by decide)

/-- C10: header decode is atomic on failure.  For every input, null pointers
included, the call returns 0 or 8; when it returns 0 the caller's header record is
what it was before the call, and a record that differs after the call comes with
return value 8. -/
theorem pureg4DecodeMMRHeader_atomic (SIZE_MAX : Nat) (hmax : 8 ≤ SIZE_MAX)
    (buf : Option (List Nat)) (buf_size : Nat) (mmrheader : Option pureg4_mmrheader_t)
    (hread : ∀ b, buf = some b → 8 ≤ buf_size → 8 ≤ b.length) :
    ∃ r out, pureg4DecodeMMRHeader SIZE_MAX buf buf_size mmrheader = .ok (r, out) ∧
      (r = 0 ∨ r = 8) ∧ (r = 0 → out = mmrheader) ∧ (out ≠ mmrheader → r = 8) := by
  cases buf with
  | none => exact ⟨0, mmrheader, by simp [pureg4DecodeMMRHeader], by simp, by simp, by simp⟩
  | some b =>
    cases mmrheader with
    | none => exact ⟨0, none, by simp [pureg4DecodeMMRHeader], by simp, by simp, by simp⟩
    | some hdr =>
      by_cases hsz : 8 ≤ buf_size
      · obtain ⟨b0, b1, b2, b3, b4, b5, b6, b7, rest, rfl⟩ := exists_eight b (hread b rfl hsz)
        rw [pureg4DecodeMMRHeader_eight SIZE_MAX hmax b0 b1 b2 b3 b4 b5 b6 b7 rest buf_size hsz
          hdr]
        by_cases hsig : be_accum 0 [b0, b1, b2] = pureg4_mmrheader_sign
        · rw [if_neg (not_not.mpr hsig)]
          exact ⟨8, _, rfl, by simp, by simp, by simp⟩
        · rw [if_pos hsig]
          exact ⟨0, _, rfl, by simp, by simp, by simp⟩
      · rw [pureg4DecodeMMRHeader_short SIZE_MAX b buf_size hdr (by omega)]
        exact ⟨0, _, rfl, by simp, by simp, by simp⟩

/-- Witness of C10: a buffer with a wrong third signature byte leaves the record
`⟨9, 9, 9⟩` as it was. -/
theorem pureg4DecodeMMRHeader_atomic_witness :
    ∃ r out, pureg4DecodeMMRHeader (2 ^ 64 - 1)
        (some [0x4D, 0x4D, 0x53, 0x01, 0x00, 0x04, 0x00, 0x03]) 8 (some ⟨9, 9, 9⟩) = .ok (r, out) ∧
      (r = 0 ∨ r = 8) ∧ (r = 0 → out = some ⟨9, 9, 9⟩) ∧ (out ≠ some ⟨9, 9, 9⟩ → r = 8) :=
  pureg4DecodeMMRHeader_atomic (2 ^ 64 - 1) (by decide)
    (some [0x4D, 0x4D, 0x53, 0x01, 0x00, 0x04, 0x00, 0x03]) 8 (some ⟨9, 9, 9⟩)
    (by intro b hb _; cases hb; decide)

theorem pureg4GetDecodedImageSize_of_pos (SIZE_MAX width height : Nat) (hw : 1 ≤ width) :
    pureg4GetDecodedImageSize SIZE_MAX width height =
      .ok (if width * height ≤ SIZE_MAX then width * height else 0) := by
  unfold pureg4GetDecodedImageSize
  rw [if_neg (by omega)]
  have hdiv : SIZE_MAX / width < height ↔ SIZE_MAX < height * width :=
    Nat.div_lt_iff_lt_mul (by omega)
  rw [Nat.mul_comm height width] at hdiv
  by_cases hlt : SIZE_MAX / width < height
  · rw [if_pos hlt, if_neg (by have := hdiv.mp hlt; omega)]
  · have hle : width * height ≤ SIZE_MAX := by
      by_contra hc
      exact hlt (hdiv.mpr (by omega))
    rw [if_neg hlt, if_pos hle, Nat.mod_eq_of_lt (by omega)]

theorem pureg4GetEncodedImageSize_of_pos (SIZE_MAX width height : Nat) (hw : 1 ≤ width)
    (hmax : 8 ≤ SIZE_MAX) :
    pureg4GetEncodedImageSize SIZE_MAX width height =
      .ok (if width * height + 8 ≤ SIZE_MAX then width * height + 8 else 0) := by
  unfold pureg4GetEncodedImageSize
  rw [if_neg (by omega)]
  have hdiv : SIZE_MAX / width < height ↔ SIZE_MAX < height * width :=
    Nat.div_lt_iff_lt_mul (by omega)
  rw [Nat.mul_comm height width] at hdiv
  have hsub : size_sub SIZE_MAX SIZE_MAX 8 = SIZE_MAX - 8 :=
    size_sub_eq SIZE_MAX SIZE_MAX 8 hmax (Nat.le_refl _)
  by_cases hlt : SIZE_MAX / width < height
  · rw [if_pos hlt, if_neg (by have := hdiv.mp hlt; omega)]
  · have hle : width * height ≤ SIZE_MAX := by
      by_contra hc
      exact hlt (hdiv.mpr (by omega))
    rw [if_neg hlt]
    simp only [pureg4_mmrheader_size, hsub, Nat.mod_eq_of_lt (Nat.lt_succ_of_le hle)]
    by_cases hadd : width * height + 8 ≤ SIZE_MAX
    · rw [if_neg (by omega), if_pos hadd, Nat.mod_eq_of_lt (by omega)]
    · rw [if_pos (by omega), if_neg hadd]

/-- C7 (what the code does, the failing input included): for `width = 0` the
overflow test `SIZE_MAX / width` of `pureg4GetDecodedImageSize` divides by zero and the
call has no defined result; for `width ≥ 1` it returns `width * height` when the
product is at most `SIZE_MAX` and the sentinel 0 when it is larger. -/
theorem pureg4GetDecodedImageSize_eq (SIZE_MAX width height : Nat) :
    pureg4GetDecodedImageSize SIZE_MAX width height =
      if width = 0 then .error .div_by_zero
      else .ok (if width * height ≤ SIZE_MAX then width * height else 0) := by
  by_cases hw : width = 0
  · simp [pureg4GetDecodedImageSize, hw]
  · rw [if_neg hw, pureg4GetDecodedImageSize_of_pos SIZE_MAX width height (by omega)]

/-- C8 (what the code does, the failing input included): for `width = 0` the
overflow test of `pureg4GetEncodedImageSize` divides by zero and the call has no
defined result, so it does not return the decoded size plus 8; for `width ≥ 1` it
returns `width * height + 8` when that is at most `SIZE_MAX` and the sentinel 0
otherwise. -/
theorem pureg4GetEncodedImageSize_eq (SIZE_MAX width height : Nat) (hmax : 8 ≤ SIZE_MAX) :
    pureg4GetEncodedImageSize SIZE_MAX width height =
      if width = 0 then .error .div_by_zero
      else .ok (if width * height + 8 ≤ SIZE_MAX then width * height + 8 else 0) := by
  by_cases hw : width = 0
  · simp [pureg4GetEncodedImageSize, hw]
  · rw [if_neg hw, pureg4GetEncodedImageSize_of_pos SIZE_MAX width height (by omega) hmax]

/-- Witness of C8 at the failing input: width 0, height 7, 64-bit `size_t`. -/
theorem pureg4GetEncodedImageSize_eq_witness :
    pureg4GetEncodedImageSize (2 ^ 64 - 1) 0 7 = .error .div_by_zero :=
  pureg4GetEncodedImageSize_eq (2 ^ 64 - 1) 0 7 (by decide)

/-- C9 (evaluation at the failing inputs): with `width = 0` neither size function
returns a value, for any `height`: `pureg4GetDecodedImageSize` does not return 0 and
`pureg4GetEncodedImageSize` does not return 8.  With `width ≥ 1` and `height = 0`
they do return 0 and 8. -/
theorem size_functions_zero_dimension (SIZE_MAX width height : Nat) :
    pureg4GetDecodedImageSize SIZE_MAX 0 height ≠ .ok 0 ∧
    pureg4GetEncodedImageSize SIZE_MAX 0 height ≠ .ok 8 ∧
    (1 ≤ width → 8 ≤ SIZE_MAX →
      pureg4GetDecodedImageSize SIZE_MAX width 0 = .ok 0 ∧
      pureg4GetEncodedImageSize SIZE_MAX width 0 = .ok 8) := by
  refine ⟨by simp [pureg4GetDecodedImageSize], by simp [pureg4GetEncodedImageSize], ?_⟩
  intro hw hmax
  rw [pureg4GetDecodedImageSize_of_pos SIZE_MAX width 0 hw,
    pureg4GetEncodedImageSize_of_pos SIZE_MAX width 0 hw hmax]
  simp [hmax]

/-- Witness of C9 at width 0 and 5, with a 64-bit `size_t`. -/
theorem size_functions_zero_dimension_witness :
    pureg4GetDecodedImageSize (2 ^ 64 - 1) 0 7 ≠ .ok 0 ∧
    pureg4GetEncodedImageSize (2 ^ 64 - 1) 0 7 ≠ .ok 8 ∧
    pureg4GetDecodedImageSize (2 ^ 64 - 1) 5 0 = .ok 0 ∧
    pureg4GetEncodedImageSize (2 ^ 64 - 1) 5 0 = .ok 8 :=
  have h := size_functions_zero_dimension (2 ^ 64 - 1) 5 7
  ⟨h.1, h.2.1, h.2.2 (by decide) (by decide)⟩

theorem invert_loop_head (n : Nat) : ∀ (v : Nat) (tl : List Nat), v ≤ 255 →
    invert_loop 0 n (v :: tl) = .ok ((if n % 2 = 1 then 255 - v else v) :: tl) := by
  induction n with
  | zero => intro v tl _; simp [invert_loop]
  | succ n ih =>
    intro v tl hv
    have hmod : (255 - v) % 2 ^ 8 = 255 - v := Nat.mod_eq_of_lt (by omega)
    simp only [invert_loop, List.getElem?_cons_zero, List.set_cons_zero, hmod]
    rw [ih (255 - v) tl (by omega)]
    have hvv : 255 - (255 - v) = v := by omega
    rcases Nat.mod_two_eq_zero_or_one n with h | h
    · have h1 : (n + 1) % 2 = 1 := by omega
      simp [h, h1]
    · have h1 : ¬ (n + 1) % 2 = 1 := by omega
      simp [h, h1, hvv]

set_option maxRecDepth 100000 in
theorem flags_unsupported_iff (flags : Nat) (hf : flags < 256) :
    flags &&& (2 ^ 32 - 1 - PUREG4_MMR_FLAG_MIN_IS_BLACK) ≠ 0 ↔ 2 ≤ flags := by
  have h : ∀ f, f < 256 → (f &&& (2 ^ 32 - 1 - PUREG4_MMR_FLAG_MIN_IS_BLACK) ≠ 0 ↔ 2 ≤ f) := by
    decide
  exact h flags hf

theorem no_overflow_of_le (SIZE_MAX width height : Nat) (hw : 1 ≤ width)
    (hrep : width * height ≤ SIZE_MAX) : ¬ SIZE_MAX / width < height := by
  intro hlt
  have h := (Nat.div_lt_iff_lt_mul (by omega : 0 < width)).mp hlt
  rw [Nat.mul_comm height width] at h
  omega

theorem pureg4DecodeImage_flags_zero (SIZE_MAX : Nat) (buf : Option (List Nat))
    (buf_size width height : Nat) (imgbuf : List Nat) (hw : 1 ≤ width)
    (hrep : width * height ≤ SIZE_MAX) (hlen : width * height ≤ imgbuf.length) :
    pureg4DecodeImage SIZE_MAX buf buf_size width height 0 imgbuf =
      .ok (buf_size, List.replicate (width * height) 0 ++ imgbuf.drop (width * height)) := by
  unfold pureg4DecodeImage
  rw [if_neg (by omega), if_neg (no_overflow_of_le SIZE_MAX width height hw hrep)]
  simp only [Nat.zero_and, ne_eq, not_true_eq_false, if_false, memset_zero,
    Nat.mod_eq_of_lt (Nat.lt_succ_of_le hrep), hlen, if_true]

theorem pureg4DecodeImage_flags_one (SIZE_MAX : Nat) (buf : Option (List Nat))
    (buf_size width height : Nat) (imgbuf : List Nat) (hw : 1 ≤ width) (hh : 1 ≤ height)
    (hrep : width * height ≤ SIZE_MAX) (hlen : width * height ≤ imgbuf.length) :
    pureg4DecodeImage SIZE_MAX buf buf_size width height PUREG4_MMR_FLAG_MIN_IS_BLACK imgbuf =
      .ok (buf_size, (if (width * height) % 2 = 1 then 255 else 0) ::
        (List.replicate (width * height - 1) 0 ++ imgbuf.drop (width * height))) := by
  have hpos : 1 ≤ width * height := Nat.mul_le_mul hw hh
  obtain ⟨m, hm⟩ : ∃ m, width * height = m + 1 := ⟨width * height - 1, by omega⟩
  unfold pureg4DecodeImage
  rw [if_neg (by omega), if_neg (no_overflow_of_le SIZE_MAX width height hw hrep)]
  have hf1 : ¬ (PUREG4_MMR_FLAG_MIN_IS_BLACK &&& (2 ^ 32 - 1 - PUREG4_MMR_FLAG_MIN_IS_BLACK) ≠ 0) := by
    decide
  have hf2 : PUREG4_MMR_FLAG_MIN_IS_BLACK &&& PUREG4_MMR_FLAG_MIN_IS_BLACK ≠ 0 := by decide
  rw [if_neg hf1]
  simp only [memset_zero, Nat.mod_eq_of_lt (Nat.lt_succ_of_le hrep), hlen, if_true, ne_eq, hf2,
    not_false_eq_true]
  rw [hm, List.replicate_succ, List.cons_append, invert_loop_head (m + 1) 0 _ (by omega)]
  simp

/-- C4 (what the code does with flags = MIN_IS_BLACK): the pointer `p` of the
inversion loop is never advanced, so each of the `width * height` iterations
complements the first byte of the zero-filled raster again.  For `width, height ≥ 1`
the first byte ends as 255 when `width * height` is odd and as 0 when it is even,
and every other byte of the raster stays 0: the raster is not filled with 255. -/
theorem pureg4DecodeImage_min_is_black (SIZE_MAX : Nat) (buf : Option (List Nat))
    (buf_size width height : Nat) (imgbuf : List Nat) (hw : 1 ≤ width) (hh : 1 ≤ height)
    (hrep : width * height ≤ SIZE_MAX) (hlen : width * height ≤ imgbuf.length) :
    pureg4DecodeImage SIZE_MAX buf buf_size width height PUREG4_MMR_FLAG_MIN_IS_BLACK imgbuf =
      .ok (buf_size, (if (width * height) % 2 = 1 then 255 else 0) ::
        (List.replicate (width * height - 1) 0 ++ imgbuf.drop (width * height))) :=
  pureg4DecodeImage_flags_one SIZE_MAX buf buf_size width height imgbuf hw hh hrep hlen

/-- Witness of C4 at the failing input: width 4, height 3, flags 1 and a 12-byte
raster give twelve bytes of value 0. -/
theorem pureg4DecodeImage_min_is_black_witness :
    pureg4DecodeImage (2 ^ 64 - 1) (some [0xAA, 0xBB]) 2 4 3 1 (List.replicate 12 7) =
      .ok (2, List.replicate 12 0) :=
  pureg4DecodeImage_min_is_black (2 ^ 64 - 1) (some [0xAA, 0xBB]) 2 4 3 (List.replicate 12 7)
    (by decide) (by decide) (by decide) (by decide)

/-- C5: with `size_t` of at least 32 bits, for every 16-bit `width ≥ 1` and
`height`, every input buffer and every initial content of a raster of at least
`width * height` bytes, `pureg4DecodeImage` with flags = 0 sets the first
`width * height` bytes of the raster to 0, leaves the bytes after them as they were,
and returns `buf_size`. -/
theorem pureg4DecodeImage_zero_fill (SIZE_MAX : Nat) (hmax : 2 ^ 32 - 1 ≤ SIZE_MAX)
    (buf : Option (List Nat)) (buf_size width height : Nat) (imgbuf : List Nat)
    (hw : 1 ≤ width) (hw16 : width < 2 ^ 16) (hh16 : height < 2 ^ 16)
    (hlen : width * height ≤ imgbuf.length) :
    pureg4DecodeImage SIZE_MAX buf buf_size width height 0 imgbuf =
      .ok (buf_size, List.replicate (width * height) 0 ++ imgbuf.drop (width * height)) := by
  have hprod : width * height ≤ 65535 * 65535 := Nat.mul_le_mul (by omega) (by omega)
  exact pureg4DecodeImage_flags_zero SIZE_MAX buf buf_size width height imgbuf hw (by omega) hlen

/-- Witness of C5: width 4, height 3 and a 13-byte raster. -/
theorem pureg4DecodeImage_zero_fill_witness :
    pureg4DecodeImage (2 ^ 32 - 1) (some [0xAA, 0xBB]) 2 4 3 0
        [1, 2, 3, 4, 5, 6, 7, 8, 9, 10, 11, 12, 13] =
      .ok (2, [0, 0, 0, 0, 0, 0, 0, 0, 0, 0, 0, 0, 13]) :=
  pureg4DecodeImage_zero_fill (2 ^ 32 - 1) (by decide) (some [0xAA, 0xBB]) 2 4 3
    [1, 2, 3, 4, 5, 6, 7, 8, 9, 10, 11, 12, 13] (by decide) (by decide) (by decide) (by decide)

/-- C6: for every flags value in 2..255, that is with a bit set outside
MIN_IS_BLACK, and every `width ≥ 1`, `height`, input buffer and `buf_size`,
`pureg4DecodeImage` returns 0 and leaves the raster as it was. -/
theorem pureg4DecodeImage_unsupported_flags (SIZE_MAX : Nat) (buf : Option (List Nat))
    (buf_size width height flags : Nat) (imgbuf : List Nat) (hw : 1 ≤ width)
    (hf : 2 ≤ flags) (hf8 : flags < 256) :
    pureg4DecodeImage SIZE_MAX buf buf_size width height flags imgbuf = .ok (0, imgbuf) := by
  unfold pureg4DecodeImage
  rw [if_neg (by omega)]
  by_cases hov : SIZE_MAX / width < height
  · rw [if_pos hov]
  · rw [if_neg hov, if_pos ((flags_unsupported_iff flags hf8).mpr hf)]

/-- Witness of C6: STRIPPED combined with MIN_IS_BLACK (flags 3). -/
theorem pureg4DecodeImage_unsupported_flags_witness :
    pureg4DecodeImage (2 ^ 64 - 1) (some [0xAA, 0xBB]) 2 4 3 3 [1, 2, 3, 4, 5, 6, 7, 8, 9, 10, 11, 12] =
      .ok (0, [1, 2, 3, 4, 5, 6, 7, 8, 9, 10, 11, 12]) :=
  pureg4DecodeImage_unsupported_flags (2 ^ 64 - 1) (some [0xAA, 0xBB]) 2 4 3 3
    [1, 2, 3, 4, 5, 6, 7, 8, 9, 10, 11, 12] (by decide) (by decide) (by decide)

theorem bits_to_read_ok (SIZE_MAX : Nat) (h8 : 8 ≤ SIZE_MAX) (a : array_t) (bits : Nat)
    (hbo : a.bit_offset ≤ 7) : bits_to_read SIZE_MAX a bits = min (8 - a.bit_offset) bits := by
  unfold bits_to_read
  rw [size_sub_eq SIZE_MAX 8 a.bit_offset (by omega) h8, Nat.min_def]
  split <;> split <;> omega

theorem ArrayReadLoop_step_ok (SIZE_MAX : Nat) (h8 : 8 ≤ SIZE_MAX) (fuel : Nat) (a : array_t)
    (bits ret : Nat) (hok : cursor_ok a) (h0 : bits ≠ 0) (h1 : a.byte_offset < a.buf_size) :
    ArrayReadLoop SIZE_MAX (fuel + 1) a bits ret =
      ArrayReadLoop SIZE_MAX fuel (cursor_step a (min (8 - a.bit_offset) bits))
        (bits - min (8 - a.bit_offset) bits)
        (accum_step ret (a.buf[a.curptr]?.getD 0) a.bit_offset (min (8 - a.bit_offset) bits)) := by
  obtain ⟨hbo, hptr, _, hlen, _⟩ := hok
  rw [ArrayReadLoop_step SIZE_MAX fuel a bits ret h0 (by omega),
    bits_to_read_ok SIZE_MAX h8 a bits hbo]
  have hk : min (8 - a.bit_offset) bits ≤ 8 := by
    rw [Nat.min_def]; split <;> omega
  rw [if_neg (by omega)]
  have hget : a.buf[a.curptr]? = some a.buf[a.curptr] := List.getElem?_eq_getElem (by omega)
  simp only [hget, Option.getD_some]

theorem cursor_step_ok (a : array_t) (bits : Nat) (hok : cursor_ok a)
    (h1 : a.byte_offset < a.buf_size) :
    cursor_ok (cursor_step a (min (8 - a.bit_offset) bits)) ∧
      (cursor_step a (min (8 - a.bit_offset) bits)).buf = a.buf ∧
      (cursor_step a (min (8 - a.bit_offset) bits)).buf_size = a.buf_size ∧
      bit_position (cursor_step a (min (8 - a.bit_offset) bits)) =
        bit_position a + min (8 - a.bit_offset) bits ∧
      a.byte_offset ≤ (cursor_step a (min (8 - a.bit_offset) bits)).byte_offset := by
  obtain ⟨hbo, hptr, hle, hlen, hin⟩ := hok
  have hk : min (8 - a.bit_offset) bits ≤ 8 - a.bit_offset := Nat.min_le_left _ _
  unfold cursor_step cursor_ok bit_position
  split
  · simp only
    refine ⟨⟨by omega, by omega, by omega, hlen, by omega⟩, trivial, trivial, by omega, by omega⟩
  · simp only
    refine ⟨⟨by omega, hptr, hle, hlen, fun _ => h1⟩, trivial, trivial, by omega, by omega⟩

theorem bit_position_le (a : array_t) (hok : cursor_ok a) : bit_position a ≤ 8 * a.buf_size := by
  obtain ⟨hbo, _, hle, _, hin⟩ := hok
  unfold bit_position
  by_cases h : a.bit_offset = 0
  · omega
  · have := hin h
    omega

theorem ArrayReadLoop_ok (SIZE_MAX : Nat) (h8 : 8 ≤ SIZE_MAX) :
    ∀ (fuel : Nat) (a : array_t) (bits ret : Nat), cursor_ok a → bits ≤ fuel →
      ∃ v a1, ArrayReadLoop SIZE_MAX fuel a bits ret = .ok (v, a1) ∧ cursor_ok a1 ∧
        a1.buf = a.buf ∧ a1.buf_size = a.buf_size ∧
        bit_position a1 = min (bit_position a + bits) (8 * a.buf_size) ∧
        a.byte_offset ≤ a1.byte_offset := by
  intro fuel
  induction fuel with
  | zero =>
    intro a bits ret hok hf
    have hb : bits = 0 := by omega
    have hp := bit_position_le a hok
    exact ⟨ret, a, by simp [ArrayReadLoop, hb], hok, rfl, rfl, by rw [hb]; omega, Nat.le_refl _⟩
  | succ fuel ih =>
    intro a bits ret hok hf
    have hp := bit_position_le a hok
    by_cases h0 : bits = 0
    · exact ⟨ret, a, by simp [ArrayReadLoop, h0], hok, rfl, rfl, by rw [h0]; omega,
        Nat.le_refl _⟩
    by_cases h1 : a.buf_size ≤ a.byte_offset
    · refine ⟨ret, a, by simp [ArrayReadLoop, h0, h1], hok, rfl, rfl, ?_, Nat.le_refl _⟩
      have hle := hok.2.2.1
      have hbo : a.bit_offset = 0 := by
        by_contra hc
        have := hok.2.2.2.2 hc
        omega
      unfold bit_position at hp ⊢
      omega
    have h1' : a.byte_offset < a.buf_size := by omega
    have hk1 : 1 ≤ min (8 - a.bit_offset) bits := by
      have := hok.1
      rw [Nat.min_def]; split <;> omega
    have hk2 : min (8 - a.bit_offset) bits ≤ bits := Nat.min_le_right _ _
    obtain ⟨hok1, hbuf1, hsz1, hpos1, hmono1⟩ := cursor_step_ok a bits hok h1'
    rw [ArrayReadLoop_step_ok SIZE_MAX h8 fuel a bits ret hok h0 h1']
    obtain ⟨v, a1, hrun, hok2, hbuf2, hsz2, hpos2, hmono2⟩ :=
      ih (cursor_step a (min (8 - a.bit_offset) bits)) (bits - min (8 - a.bit_offset) bits)
        (accum_step ret (a.buf[a.curptr]?.getD 0) a.bit_offset (min (8 - a.bit_offset) bits))
        hok1 (by omega)
    refine ⟨v, a1, hrun, hok2, hbuf2.trans hbuf1, hsz2.trans hsz1, ?_, by omega⟩
    rw [hpos2, hpos1, hsz1]
    congr 1
    omega

theorem ArrayReadToUInt32_ok (SIZE_MAX : Nat) (h8 : 8 ≤ SIZE_MAX) (a : array_t) (bits : Nat)
    (hok : cursor_ok a) :
    ∃ v a1, ArrayReadToUInt32 SIZE_MAX a bits = .ok (v, a1) ∧ cursor_ok a1 ∧
      a1.buf = a.buf ∧ a1.buf_size = a.buf_size ∧
      bit_position a1 =
        (if bits = 0 ∨ bits > 32 then bit_position a
         else min (bit_position a + bits) (8 * a.buf_size)) ∧
      a.byte_offset ≤ a1.byte_offset := by
  unfold ArrayReadToUInt32
  by_cases hd : bits = 0 ∨ bits > 32
  · rw [if_pos hd, if_pos hd]
    exact ⟨0, a, rfl, hok, rfl, rfl, rfl, Nat.le_refl _⟩
  · rw [if_neg hd, if_neg hd]
    exact ArrayReadLoop_ok SIZE_MAX h8 (2 * bits) a bits 0 hok (by omega)

theorem ArrayReadFields_ok (SIZE_MAX : Nat) (h8 : 8 ≤ SIZE_MAX) :
    ∀ (widths : List Nat) (a : array_t), cursor_ok a →
      ∃ vals a1, ArrayReadFields SIZE_MAX a widths = .ok (vals, a1) ∧ cursor_ok a1 ∧
        a1.buf = a.buf ∧ a1.buf_size = a.buf_size ∧ vals.length = widths.length ∧
        a.byte_offset ≤ a1.byte_offset ∧
        ((∀ n ∈ widths, 1 ≤ n ∧ n ≤ 32) → bit_position a + widths.sum ≤ 8 * a.buf_size →
          bit_position a1 = bit_position a + widths.sum) := by
  intro widths
  induction widths with
  | nil =>
    intro a hok
    exact ⟨[], a, rfl, hok, rfl, rfl, rfl, Nat.le_refl _, fun _ _ => by simp⟩
  | cons n ns ih =>
    intro a hok
    obtain ⟨v, a1, hrun, hok1, hbuf1, hsz1, hpos1, hmono1⟩ :=
      ArrayReadToUInt32_ok SIZE_MAX h8 a n hok
    obtain ⟨vs, a2, hrun2, hok2, hbuf2, hsz2, hlen2, hmono2, hpos2⟩ := ih a1 hok1
    refine ⟨v :: vs, a2, ?_, hok2, hbuf2.trans hbuf1, hsz2.trans hsz1, by simp [hlen2],
      by omega, ?_⟩
    · simp only [ArrayReadFields, hrun, hrun2]
    · intro hw hsum
      have hn := hw n (by simp)
      simp only [List.sum_cons] at hsum ⊢
      rw [if_neg (by omega)] at hpos1
      have hp1 : bit_position a1 = bit_position a + n := by omega
      rw [hpos2 (fun m hm => hw m (by simp [hm])) (by rw [hp1, hsz1]; omega), hp1]
      omega

theorem cursor_ok_init (buf : List Nat) (buf_size : Nat) (hlen : buf_size ≤ buf.length) :
    cursor_ok (ArrayInit buf buf_size) := by
  unfold cursor_ok ArrayInit
  simp [hlen]

theorem Reachable_ok (SIZE_MAX : Nat) (h8 : 8 ≤ SIZE_MAX) (buf : List Nat) (buf_size : Nat)
    (hlen : buf_size ≤ buf.length) (a : array_t) (hr : Reachable SIZE_MAX buf buf_size a) :
    cursor_ok a ∧ a.buf = buf ∧ a.buf_size = buf_size := by
  obtain ⟨widths, vals, hrun⟩ := hr
  obtain ⟨vals1, a1, hrun1, hok1, hbuf1, hsz1, _⟩ :=
    ArrayReadFields_ok SIZE_MAX h8 widths (ArrayInit buf buf_size)
      (cursor_ok_init buf buf_size hlen)
  rw [hrun] at hrun1
  simp only [Except.ok.injEq, Prod.mk.injEq] at hrun1
  obtain ⟨_, rfl⟩ := hrun1
  exact ⟨hok1, hbuf1, hsz1⟩

theorem ArrayReadFields_append (SIZE_MAX : Nat) :
    ∀ (ws ws1 : List Nat) (a a1 a2 : array_t) (vs vs1 : List Nat),
      ArrayReadFields SIZE_MAX a ws = .ok (vs, a1) →
      ArrayReadFields SIZE_MAX a1 ws1 = .ok (vs1, a2) →
      ArrayReadFields SIZE_MAX a (ws ++ ws1) = .ok (vs ++ vs1, a2) := by
  intro ws
  induction ws with
  | nil =>
    intro ws1 a a1 a2 vs vs1 h1 h2
    simp only [ArrayReadFields, Except.ok.injEq, Prod.mk.injEq] at h1
    obtain ⟨rfl, rfl⟩ := h1
    simpa using h2
  | cons n ns ih =>
    intro ws1 a a1 a2 vs vs1 h1 h2
    simp only [ArrayReadFields] at h1
    cases hr : ArrayReadToUInt32 SIZE_MAX a n with
    | error e => simp [hr] at h1
    | ok r =>
      obtain ⟨v, b⟩ := r
      simp only [hr] at h1
      cases hr2 : ArrayReadFields SIZE_MAX b ns with
      | error e => simp [hr2] at h1
      | ok r2 =>
        obtain ⟨vs2, b2⟩ := r2
        simp only [hr2, Except.ok.injEq, Prod.mk.injEq] at h1
        obtain ⟨rfl, rfl⟩ := h1
        have h3 := ih ws1 b b2 a2 vs2 vs1 hr2 h2
        rw [List.cons_append, ArrayReadFields]
        simp only [hr, h3, List.cons_append]

theorem Reachable_read (SIZE_MAX : Nat) (buf : List Nat) (buf_size : Nat) (a a1 : array_t)
    (bits v : Nat) (hr : Reachable SIZE_MAX buf buf_size a)
    (hrun : ArrayReadToUInt32 SIZE_MAX a bits = .ok (v, a1)) :
    Reachable SIZE_MAX buf buf_size a1 := by
  obtain ⟨ws, vs, hws⟩ := hr
  refine ⟨ws ++ [bits], vs ++ [v], ?_⟩
  apply ArrayReadFields_append SIZE_MAX ws [bits] _ a a1 vs [v] hws
  simp only [ArrayReadFields, hrun]

theorem ArrayReadToUInt32_chunk (SIZE_MAX : Nat) (h8 : 8 ≤ SIZE_MAX) (a : array_t) (k : Nat)
    (hok : cursor_ok a) (h1 : a.byte_offset < a.buf_size) (hk1 : 1 ≤ k)
    (hk : k ≤ 8 - a.bit_offset) :
    ArrayReadToUInt32 SIZE_MAX a k =
      .ok (accum_step 0 (a.buf[a.curptr]?.getD 0) a.bit_offset k, cursor_step a k) := by
  unfold ArrayReadToUInt32
  rw [if_neg (by omega)]
  obtain ⟨f, hf⟩ : ∃ f, 2 * k = f + 1 := ⟨2 * k - 1, by omega⟩
  rw [hf, ArrayReadLoop_step_ok SIZE_MAX h8 f a k 0 hok (by omega) h1]
  have hmin : min (8 - a.bit_offset) k = k := Nat.min_eq_right hk
  rw [hmin, Nat.sub_self]
  cases f <;> simp [ArrayReadLoop]

theorem ArrayReadLoop_fuel_succ (SIZE_MAX : Nat) :
    ∀ (fuel : Nat) (a : array_t) (bits ret : Nat) (r : Nat × array_t),
      ArrayReadLoop SIZE_MAX fuel a bits ret = .ok r →
      ArrayReadLoop SIZE_MAX (fuel + 1) a bits ret = .ok r := by
  intro fuel
  induction fuel with
  | zero =>
    intro a bits ret r h
    by_cases h0 : bits = 0
    · simpa [ArrayReadLoop, h0] using h
    by_cases h1 : a.buf_size ≤ a.byte_offset
    · simpa [ArrayReadLoop, h0, h1] using h
    · simp [ArrayReadLoop, h0, h1] at h
  | succ fuel ih =>
    intro a bits ret r h
    by_cases h0 : bits = 0
    · simpa [ArrayReadLoop, h0] using h
    by_cases h1 : a.buf_size ≤ a.byte_offset
    · simpa [ArrayReadLoop, h0, h1] using h
    rw [ArrayReadLoop_step SIZE_MAX fuel a bits ret h0 h1] at h
    rw [ArrayReadLoop_step SIZE_MAX (fuel + 1) a bits ret h0 h1]
    by_cases hs : 31 ≤ bits_to_read SIZE_MAX a bits ∨ 32 ≤ a.bit_offset
    · rw [if_pos hs] at h
      simp at h
    · rw [if_neg hs] at h ⊢
      cases hget : a.buf[a.curptr]? with
      | none => simp [hget] at h
      | some byte =>
        simp only [hget] at h ⊢
        exact ih _ _ _ r h

theorem ArrayReadLoop_fuel_le (SIZE_MAX : Nat) (fuel fuel1 : Nat) (hle : fuel ≤ fuel1)
    (a : array_t) (bits ret : Nat) (r : Nat × array_t)
    (h : ArrayReadLoop SIZE_MAX fuel a bits ret = .ok r) :
    ArrayReadLoop SIZE_MAX fuel1 a bits ret = .ok r := by
  induction hle with
  | refl => exact h
  | step _ ih => exact ArrayReadLoop_fuel_succ SIZE_MAX _ a bits ret r ih

/-- C11: `pureg4DecodeImage` does not interpret its input.  Two calls that differ
only in the input buffer (null, or any contents) give the same raster and the same
return value; and with flags 0 or MIN_IS_BLACK, 16-bit `width ≥ 1` and `height`,
`size_t` of at least 32 bits and a raster of at least `width * height` bytes, the
call returns exactly `buf_size`. -/
theorem pureg4DecodeImage_input_independent (SIZE_MAX : Nat) (hmax : 2 ^ 32 - 1 ≤ SIZE_MAX)
    (buf1 buf2 : Option (List Nat)) (buf_size width height flags : Nat) (imgbuf : List Nat)
    (hw : 1 ≤ width) (hw16 : width < 2 ^ 16) (hh16 : height < 2 ^ 16)
    (hlen : width * height ≤ imgbuf.length) :
    pureg4DecodeImage SIZE_MAX buf1 buf_size width height flags imgbuf =
      pureg4DecodeImage SIZE_MAX buf2 buf_size width height flags imgbuf ∧
    (flags = 0 ∨ flags = PUREG4_MMR_FLAG_MIN_IS_BLACK →
      ∃ img, pureg4DecodeImage SIZE_MAX buf1 buf_size width height flags imgbuf =
        .ok (buf_size, img)) := by
  refine ⟨rfl, ?_⟩
  have hprod : width * height ≤ 65535 * 65535 := Nat.mul_le_mul (by omega) (by omega)
  have hrep : width * height ≤ SIZE_MAX := by omega
  rintro (rfl | rfl)
  · exact ⟨_, pureg4DecodeImage_flags_zero SIZE_MAX buf1 buf_size width height imgbuf hw hrep
      hlen⟩
  · by_cases hh : 1 ≤ height
    · exact ⟨_, pureg4DecodeImage_flags_one SIZE_MAX buf1 buf_size width height imgbuf hw hh
        hrep hlen⟩
    · have h0 : height = 0 := by omega
      subst h0
      refine ⟨imgbuf, ?_⟩
      unfold pureg4DecodeImage
      rw [if_neg (by omega), if_neg (Nat.not_lt_zero _)]
      simp [memset_zero, invert_loop, PUREG4_MMR_FLAG_MIN_IS_BLACK]

/-- Witness of C11: two different input buffers of size 2, width 4, height 3,
flags 1. -/
theorem pureg4DecodeImage_input_independent_witness :
    pureg4DecodeImage (2 ^ 32 - 1) (some [0xAA, 0xBB]) 2 4 3 1 (List.replicate 12 7) =
      pureg4DecodeImage (2 ^ 32 - 1) (some [0x00, 0x01]) 2 4 3 1 (List.replicate 12 7) ∧
    (1 = 0 ∨ 1 = PUREG4_MMR_FLAG_MIN_IS_BLACK →
      ∃ img, pureg4DecodeImage (2 ^ 32 - 1) (some [0xAA, 0xBB]) 2 4 3 1 (List.replicate 12 7) =
        .ok (2, img)) :=
  pureg4DecodeImage_input_independent (2 ^ 32 - 1) (by decide) (some [0xAA, 0xBB])
    (some [0x00, 0x01]) 2 4 3 1 (List.replicate 12 7) (by decide) (by decide) (by decide)
    (by decide)

/-- C15: degenerate bit counts.  For every cursor state, `ArrayReadToUInt32` called
with `bits = 0` or with `bits > 32` returns 0 and leaves the whole cursor record
(`byte_offset`, `bit_offset`, current pointer) unchanged. -/
theorem ArrayReadToUInt32_degenerate (SIZE_MAX : Nat) (a : array_t) (bits : Nat)
    (h : bits = 0 ∨ 32 < bits) : ArrayReadToUInt32 SIZE_MAX a bits = .ok (0, a) := by
  unfold ArrayReadToUInt32
  rw [if_pos h]

/-- Witness of C15: a request for 33 bits in the middle of a buffer. -/
theorem ArrayReadToUInt32_degenerate_witness :
    ArrayReadToUInt32 (2 ^ 64 - 1) ⟨[0xA5, 0x3C], 1, 2, 1, 3⟩ 33 =
      .ok (0, ⟨[0xA5, 0x3C], 1, 2, 1, 3⟩) :=
  ArrayReadToUInt32_degenerate (2 ^ 64 - 1) ⟨[0xA5, 0x3C], 1, 2, 1, 3⟩ 33 (by decide)

/-- C20: with `size_t` of at least 32 bits the overflow sentinel is unreachable for
non-zero widths.  For `width` in 1..65535 and `height` in 0..65535 the test
`SIZE_MAX / width < height` is false, `pureg4GetDecodedImageSize` returns
`width * height` and `pureg4GetEncodedImageSize` returns `width * height + 8`; so
the first returns 0 exactly when `height = 0` and the second never returns 0. -/
theorem size_sentinel_unreachable (SIZE_MAX : Nat) (hmax : 2 ^ 32 - 1 ≤ SIZE_MAX)
    (width height : Nat) (hw : 1 ≤ width) (hw16 : width < 2 ^ 16) (hh16 : height < 2 ^ 16) :
    ¬ (SIZE_MAX / width < height) ∧
    pureg4GetDecodedImageSize SIZE_MAX width height = .ok (width * height) ∧
    pureg4GetEncodedImageSize SIZE_MAX width height = .ok (width * height + 8) ∧
    (pureg4GetDecodedImageSize SIZE_MAX width height = .ok 0 ↔ height = 0) ∧
    pureg4GetEncodedImageSize SIZE_MAX width height ≠ .ok 0 := by
  have hprod : width * height ≤ 65535 * 65535 := Nat.mul_le_mul (by omega) (by omega)
  have hrep : width * height + 8 ≤ SIZE_MAX := by omega
  have hd : pureg4GetDecodedImageSize SIZE_MAX width height = .ok (width * height) := by
    rw [pureg4GetDecodedImageSize_of_pos SIZE_MAX width height hw, if_pos (by omega)]
  have he : pureg4GetEncodedImageSize SIZE_MAX width height = .ok (width * height + 8) := by
    rw [pureg4GetEncodedImageSize_of_pos SIZE_MAX width height hw (by omega), if_pos hrep]
  refine ⟨no_overflow_of_le SIZE_MAX width height hw (by omega), hd, he, ?_, ?_⟩
  · rw [hd]
    simp only [Except.ok.injEq, Nat.mul_eq_zero]
    omega
  · rw [he]
    simp

/-- Witness of C20: the largest dimensions, 65535 by 65535, on a 32-bit `size_t`. -/
theorem size_sentinel_unreachable_witness :
    ¬ ((2 ^ 32 - 1) / 65535 < 65535) ∧
    pureg4GetDecodedImageSize (2 ^ 32 - 1) 65535 65535 = .ok (65535 * 65535) ∧
    pureg4GetEncodedImageSize (2 ^ 32 - 1) 65535 65535 = .ok (65535 * 65535 + 8) ∧
    (pureg4GetDecodedImageSize (2 ^ 32 - 1) 65535 65535 = .ok 0 ↔ 65535 = 0) ∧
    pureg4GetEncodedImageSize (2 ^ 32 - 1) 65535 65535 ≠ .ok 0 :=
  size_sentinel_unreachable (2 ^ 32 - 1) (by decide) 65535 65535 (by decide) (by decide)
    (by decide)

/-- C14: consumed-length accounting.  For a buffer of `buf_size` readable bytes and
bit counts `n_1 .. n_k`, each in 1..32, with total `T ≤ 8 * buf_size`, reading them
in order from a freshly initialised cursor succeeds and leaves
`8 * byte_offset + bit_offset = T`; `ArrayFullOffset` then returns `⌈T / 8⌉`, which
is `byte_offset` plus one exactly when `bit_offset` is nonzero. -/
theorem ArrayReadFields_accounting (SIZE_MAX : Nat) (h8 : 8 ≤ SIZE_MAX) (buf : List Nat)
    (buf_size : Nat) (hsz : buf_size ≤ SIZE_MAX) (hlen : buf_size ≤ buf.length)
    (widths : List Nat) (hw : ∀ n ∈ widths, 1 ≤ n ∧ n ≤ 32) (hT : widths.sum ≤ 8 * buf_size) :
    ∃ vals a, ArrayReadFields SIZE_MAX (ArrayInit buf buf_size) widths = .ok (vals, a) ∧
      8 * a.byte_offset + a.bit_offset = widths.sum ∧
      ArrayFullOffset SIZE_MAX a = (widths.sum + 7) / 8 ∧
      ArrayFullOffset SIZE_MAX a = a.byte_offset + (if a.bit_offset ≠ 0 then 1 else 0) := by
  obtain ⟨vals, a, hrun, hok, _, hbs, _, _, hpos⟩ :=
    ArrayReadFields_ok SIZE_MAX h8 widths (ArrayInit buf buf_size)
      (cursor_ok_init buf buf_size hlen)
  have hp := hpos hw (by simpa [bit_position, ArrayInit] using hT)
  have hp1 : 8 * a.byte_offset + a.bit_offset = widths.sum := by
    simpa [bit_position, ArrayInit] using hp
  obtain ⟨hbo, _, _, _, hin⟩ := hok
  have hbs1 : a.buf_size = buf_size := by simpa [ArrayInit] using hbs
  refine ⟨vals, a, hrun, hp1, ?_, ?_⟩
  · unfold ArrayFullOffset
    split
    · rename_i hne
      have := hin hne
      rw [Nat.mod_eq_of_lt (by omega)]
      omega
    · omega
  · unfold ArrayFullOffset
    split
    · rename_i hne
      have := hin hne
      rw [Nat.mod_eq_of_lt (by omega)]
    · rfl

/-- Witness of C14: fields of 3, 7 and 9 bits over a three-byte buffer end at
bit 19: byte 2, bit 3, full offset 3. -/
theorem ArrayReadFields_accounting_witness :
    ∃ vals a, ArrayReadFields (2 ^ 64 - 1) (ArrayInit [0xA5, 0x3C, 0xF0] 3) [3, 7, 9] =
        .ok (vals, a) ∧
      8 * a.byte_offset + a.bit_offset = [3, 7, 9].sum ∧
      ArrayFullOffset (2 ^ 64 - 1) a = ([3, 7, 9].sum + 7) / 8 ∧
      ArrayFullOffset (2 ^ 64 - 1) a = a.byte_offset + (if a.bit_offset ≠ 0 then 1 else 0) :=
  ArrayReadFields_accounting (2 ^ 64 - 1) (by decide) [0xA5, 0x3C, 0xF0] 3 (by decide)
    (by decide) [3, 7, 9] (by decide) (by decide)

/-- C17 (counterexample): the bit position 7 is reachable.  Reading 7 bits from a
freshly initialised cursor over a one-byte buffer leaves `bit_offset = 7`, which is
not in `[0,7)`. -/
theorem bit_offset_seven_reachable :
    ∃ a, Reachable (2 ^ 64 - 1) [0] 1 a ∧ ¬ (a.bit_offset < 7) :=
  ⟨⟨[0], 0, 1, 0, 7⟩, ⟨[7], [0], by decide⟩, by decide⟩

/-- C17 (amended): in every state reachable from `ArrayInit` by calls of
`ArrayReadToUInt32`, with any bit counts, the bit position is at most 7, and a
further read with any bit count returns and does not make `byte_offset` smaller. -/
theorem Reachable_invariant (SIZE_MAX : Nat) (h8 : 8 ≤ SIZE_MAX) (buf : List Nat)
    (buf_size : Nat) (hlen : buf_size ≤ buf.length) (a : array_t)
    (hr : Reachable SIZE_MAX buf buf_size a) :
    a.bit_offset ≤ 7 ∧
    ∀ bits, ∃ v a1, ArrayReadToUInt32 SIZE_MAX a bits = .ok (v, a1) ∧
      a.byte_offset ≤ a1.byte_offset := by
  obtain ⟨hok, _, _⟩ := Reachable_ok SIZE_MAX h8 buf buf_size hlen a hr
  refine ⟨hok.1, fun bits => ?_⟩
  obtain ⟨v, a1, hrun, _, _, _, _, hmono⟩ := ArrayReadToUInt32_ok SIZE_MAX h8 a bits hok
  exact ⟨v, a1, hrun, hmono⟩

/-- Witness of C17 (amended): the state after reading 7 bits of a one-byte
buffer. -/
theorem Reachable_invariant_witness :
    (⟨[0], 0, 1, 0, 7⟩ : array_t).bit_offset ≤ 7 ∧
    ∀ bits, ∃ v a1, ArrayReadToUInt32 (2 ^ 64 - 1) ⟨[0], 0, 1, 0, 7⟩ bits = .ok (v, a1) ∧
      (⟨[0], 0, 1, 0, 7⟩ : array_t).byte_offset ≤ a1.byte_offset :=
  Reachable_invariant (2 ^ 64 - 1) (by decide) [0] 1 (by decide) ⟨[0], 0, 1, 0, 7⟩
    ⟨[7], [0], by decide⟩

/-- C18: bounds safety.  In every state reachable from `ArrayInit buf buf_size`,
for a buffer of `buf_size` readable bytes, `bit_offset ≤ 7`,
`byte_offset ≤ buf_size` and the current pointer is `buf + byte_offset`.  A further
call with any bit count returns a value: no access outside the buffer, also when
the buffer has exactly `buf_size` bytes or none.  The loop iteration that runs
next reads the byte at an index below `buf_size`, takes at least one bit and ends
in a reachable state, so the same holds for every iteration; and a read of
`bits` bits ends within `bits` iterations. -/
theorem Reachable_bounds_safe (SIZE_MAX : Nat) (h8 : 8 ≤ SIZE_MAX) (buf : List Nat)
    (buf_size : Nat) (hlen : buf_size ≤ buf.length) (a : array_t)
    (hr : Reachable SIZE_MAX buf buf_size a) :
    (a.bit_offset ≤ 7 ∧ a.byte_offset ≤ buf_size ∧ a.curptr = a.byte_offset ∧ a.buf = buf ∧
      a.buf_size = buf_size) ∧
    (∀ bits, ∃ v a1, ArrayReadToUInt32 SIZE_MAX a bits = .ok (v, a1)) ∧
    (∀ bits, 1 ≤ bits → a.byte_offset < buf_size →
      a.curptr < buf_size ∧ 1 ≤ bits_to_read SIZE_MAX a bits ∧
      Reachable SIZE_MAX buf buf_size (cursor_step a (bits_to_read SIZE_MAX a bits))) ∧
    (∀ bits, 1 ≤ bits → bits ≤ 32 →
      ArrayReadLoop SIZE_MAX bits a bits 0 = ArrayReadToUInt32 SIZE_MAX a bits) := by
  obtain ⟨hok, hbuf, hbs⟩ := Reachable_ok SIZE_MAX h8 buf buf_size hlen a hr
  have hok' := hok
  obtain ⟨hbo, hptr, hle, _, _⟩ := hok'
  refine ⟨⟨hbo, by omega, hptr, hbuf, hbs⟩, ?_, ?_, ?_⟩
  · intro bits
    obtain ⟨v, a1, hrun, _⟩ := ArrayReadToUInt32_ok SIZE_MAX h8 a bits hok
    exact ⟨v, a1, hrun⟩
  · intro bits hb hlt
    have hk : bits_to_read SIZE_MAX a bits = min (8 - a.bit_offset) bits :=
      bits_to_read_ok SIZE_MAX h8 a bits hbo
    have hk1 : 1 ≤ min (8 - a.bit_offset) bits := by
      rw [Nat.min_def]; split <;> omega
    refine ⟨by omega, by omega, ?_⟩
    rw [hk]
    exact Reachable_read SIZE_MAX buf buf_size a _ _ _ hr
      (ArrayReadToUInt32_chunk SIZE_MAX h8 a (min (8 - a.bit_offset) bits) hok (by omega) hk1
        (Nat.min_le_left _ _))
  · intro bits hb1 hb32
    obtain ⟨v, a1, hrun, _⟩ := ArrayReadLoop_ok SIZE_MAX h8 bits a bits 0 hok (Nat.le_refl _)
    rw [hrun]
    unfold ArrayReadToUInt32
    rw [if_neg (by omega)]
    exact (ArrayReadLoop_fuel_le SIZE_MAX bits (2 * bits) (by omega) a bits 0 (v, a1) hrun).symm

/-- Witness of C18: the state after reading 7 bits of a buffer that has exactly one
readable byte; a further read of 32 bits returns, and the next iteration reads
index 0 and takes one bit. -/
theorem Reachable_bounds_safe_witness :
    ((⟨[0], 0, 1, 0, 7⟩ : array_t).bit_offset ≤ 7 ∧
      (⟨[0], 0, 1, 0, 7⟩ : array_t).byte_offset ≤ 1 ∧
      (⟨[0], 0, 1, 0, 7⟩ : array_t).curptr = (⟨[0], 0, 1, 0, 7⟩ : array_t).byte_offset) ∧
    (∃ v a1, ArrayReadToUInt32 (2 ^ 64 - 1) ⟨[0], 0, 1, 0, 7⟩ 32 = .ok (v, a1)) ∧
    ((⟨[0], 0, 1, 0, 7⟩ : array_t).curptr < 1 ∧
      1 ≤ bits_to_read (2 ^ 64 - 1) ⟨[0], 0, 1, 0, 7⟩ 32) :=
  have h := Reachable_bounds_safe (2 ^ 64 - 1) (by decide) [0] 1 (by decide) ⟨[0], 0, 1, 0, 7⟩
    ⟨[7], [0], by decide⟩
  ⟨⟨h.1.1, h.1.2.1, h.1.2.2.1⟩, h.2.1 32,
    (h.2.2.1 32 (by decide) (by decide)).1, (h.2.2.1 32 (by decide) (by decide)).2.1⟩

theorem ArrayReadLoop_end (SIZE_MAX fuel : Nat) (a : array_t) (bits ret : Nat)
    (h : a.buf_size ≤ a.byte_offset) :
    ArrayReadLoop SIZE_MAX fuel a bits ret = .ok (ret, a) := by
  cases fuel with
  | zero => simp [ArrayReadLoop, h]
  | succ f => by_cases h0 : bits = 0 <;> simp [ArrayReadLoop, h, h0]

theorem ArrayReadLoop_drain (SIZE_MAX : Nat) (h8 : 8 ≤ SIZE_MAX) :
    ∀ (k : Nat) (a : array_t) (fuel1 fuel2 bits1 bits2 ret : Nat), cursor_ok a →
      a.buf_size - a.byte_offset = k → 8 * k - a.bit_offset ≤ bits1 →
      8 * k - a.bit_offset ≤ bits2 → k ≤ fuel1 → k ≤ fuel2 →
      ArrayReadLoop SIZE_MAX fuel1 a bits1 ret = ArrayReadLoop SIZE_MAX fuel2 a bits2 ret := by
  intro k
  induction k with
  | zero =>
    intro a fuel1 fuel2 bits1 bits2 ret hok hk _ _ _ _
    have hle := hok.2.2.1
    rw [ArrayReadLoop_end SIZE_MAX fuel1 a bits1 ret (by omega),
      ArrayReadLoop_end SIZE_MAX fuel2 a bits2 ret (by omega)]
  | succ k ih =>
    intro a fuel1 fuel2 bits1 bits2 ret hok hk hb1 hb2 hf1 hf2
    have hbo := hok.1
    have h1 : a.byte_offset < a.buf_size := by omega
    obtain ⟨f1, rfl⟩ : ∃ f, fuel1 = f + 1 := ⟨fuel1 - 1, by omega⟩
    obtain ⟨f2, rfl⟩ : ∃ f, fuel2 = f + 1 := ⟨fuel2 - 1, by omega⟩
    have hm1 : min (8 - a.bit_offset) bits1 = 8 - a.bit_offset := Nat.min_eq_left (by omega)
    have hm2 : min (8 - a.bit_offset) bits2 = 8 - a.bit_offset := Nat.min_eq_left (by omega)
    obtain ⟨hok1, _, hsz1, hpos1, _⟩ := cursor_step_ok a bits1 hok h1
    rw [hm1] at hok1 hsz1 hpos1
    rw [ArrayReadLoop_step_ok SIZE_MAX h8 f1 a bits1 ret hok (by omega) h1,
      ArrayReadLoop_step_ok SIZE_MAX h8 f2 a bits2 ret hok (by omega) h1, hm1, hm2]
    have hbo1 := hok1.1
    unfold bit_position at hpos1
    apply ih _ _ _ _ _ _ hok1 <;> omega

theorem cursor_at_end (a : array_t) (hok : cursor_ok a)
    (hpos : bit_position a = 8 * a.buf_size) : a.byte_offset = a.buf_size ∧ a.bit_offset = 0 := by
  obtain ⟨hbo, _, hle, _, hin⟩ := hok
  unfold bit_position at hpos
  by_cases h : a.bit_offset = 0
  · omega
  · have := hin h
    omega

/-- C16: silent truncation.  If `byte_offset = buf_size`, a read of any bit count
returns 0 and leaves the cursor unchanged.  If the cursor is consistent (bit
position in 0..7, current pointer `buf + byte_offset`, `buf_size` readable bytes)
and only `r` bits remain, with `0 < r = 8 * (buf_size - byte_offset) - bit_offset
< n ≤ 32`, a read of `n` bits returns the value and the cursor that a read of `r`
bits from the same state returns, and that cursor has `byte_offset = buf_size` and
`bit_offset = 0`. -/
theorem ArrayReadToUInt32_truncated (SIZE_MAX : Nat) (h8 : 8 ≤ SIZE_MAX) (a : array_t) :
    (∀ bits, a.byte_offset = a.buf_size → ArrayReadToUInt32 SIZE_MAX a bits = .ok (0, a)) ∧
    (∀ n r, cursor_ok a → r = 8 * (a.buf_size - a.byte_offset) - a.bit_offset → 0 < r →
      r < n → n ≤ 32 →
      ArrayReadToUInt32 SIZE_MAX a n = ArrayReadToUInt32 SIZE_MAX a r ∧
      ∃ v a1, ArrayReadToUInt32 SIZE_MAX a n = .ok (v, a1) ∧ a1.byte_offset = a.buf_size ∧
        a1.bit_offset = 0) := by
  constructor
  · intro bits hend
    unfold ArrayReadToUInt32
    split
    · rfl
    · exact ArrayReadLoop_end SIZE_MAX _ a bits 0 (by omega)
  · intro n r hok hr hr0 hrn hn
    have hle := hok.2.2.1
    have hbo := hok.1
    constructor
    · unfold ArrayReadToUInt32
      rw [if_neg (by omega), if_neg (by omega)]
      exact ArrayReadLoop_drain SIZE_MAX h8 (a.buf_size - a.byte_offset) a (2 * n) (2 * r) n r 0
        hok rfl (by omega) (by omega) (by omega) (by omega)
    · obtain ⟨v, a1, hrun, hok1, _, hsz1, hpos1, _⟩ := ArrayReadToUInt32_ok SIZE_MAX h8 a n hok
      rw [if_neg (by omega)] at hpos1
      have hp : bit_position a1 = 8 * a1.buf_size := by
        rw [hpos1, hsz1]
        unfold bit_position
        omega
      obtain ⟨e1, e2⟩ := cursor_at_end a1 hok1 hp
      exact ⟨v, a1, hrun, by omega, e2⟩

/-- Witness of C16: 11 bits remain in a two-byte buffer at byte 0, bit 5; a read of
32 bits returns what a read of 11 bits returns and ends at byte 2, bit 0. -/
theorem ArrayReadToUInt32_truncated_witness :
    ArrayReadToUInt32 (2 ^ 64 - 1) ⟨[0xA5, 0x3C], 0, 2, 0, 5⟩ 32 =
      ArrayReadToUInt32 (2 ^ 64 - 1) ⟨[0xA5, 0x3C], 0, 2, 0, 5⟩ 11 ∧
    ∃ v a1, ArrayReadToUInt32 (2 ^ 64 - 1) ⟨[0xA5, 0x3C], 0, 2, 0, 5⟩ 32 = .ok (v, a1) ∧
      a1.byte_offset = 2 ∧ a1.bit_offset = 0 :=
  (ArrayReadToUInt32_truncated (2 ^ 64 - 1) (by decide) ⟨[0xA5, 0x3C], 0, 2, 0, 5⟩).2 32 11
    (by decide) (by decide) (by decide) (by decide) (by decide)

theorem bits_to_read_le (SIZE_MAX : Nat) (a : array_t) (bits : Nat) :
    bits_to_read SIZE_MAX a bits ≤ bits := by
  unfold bits_to_read
  split <;> omega

theorem accum_step_wide (ret byte bo k m : Nat) (hret : ret < 2 ^ m) (hm : m + k ≤ 32) :
    (ret <<< k) % 2 ^ 32 = ret <<< k ∧
    accum_step ret byte bo k = (ret <<< k) ||| ((byte >>> bo) &&& ((1 <<< k) - 1)) ∧
    accum_step ret byte bo k = (ret <<< k) + ((byte >>> bo) &&& ((1 <<< k) - 1)) ∧
    accum_step ret byte bo k < 2 ^ (m + k) := by
  have hk : 1 <<< k = 2 ^ k := by rw [Nat.shiftLeft_eq, Nat.one_mul]
  have hchunk : (byte >>> bo) &&& ((1 <<< k) - 1) < 2 ^ k := by
    rw [hk]
    exact Nat.and_lt_two_pow _ (Nat.sub_lt (Nat.two_pow_pos k) (by decide))
  have hsh : ret <<< k = 2 ^ k * ret := by rw [Nat.shiftLeft_eq, Nat.mul_comm]
  have hlt : 2 ^ k * ret + ((byte >>> bo) &&& ((1 <<< k) - 1)) < 2 ^ (m + k) := by
    have h1 : 2 ^ k * (ret + 1) ≤ 2 ^ k * 2 ^ m := Nat.mul_le_mul_left _ hret
    have h2 : 2 ^ k * 2 ^ m = 2 ^ (m + k) := by rw [Nat.add_comm, Nat.pow_add]
    have h3 : 2 ^ k * (ret + 1) = 2 ^ k * ret + 2 ^ k := by ring
    omega
  have hpow : 2 ^ (m + k) ≤ 2 ^ 32 := Nat.pow_le_pow_right (by decide) hm
  have hshlt : ret <<< k < 2 ^ 32 := by rw [hsh]; omega
  have hsum : accum_step ret byte bo k = (ret <<< k) + ((byte >>> bo) &&& ((1 <<< k) - 1)) := by
    unfold accum_step
    rw [Nat.mod_eq_of_lt hshlt, Nat.mod_eq_of_lt (by rw [hsh]; omega)]
  refine ⟨Nat.mod_eq_of_lt hshlt, ?_, hsum, ?_⟩
  · rw [hsum, hsh]
    exact Nat.mul_add_lt_is_or hchunk ret
  · rw [hsum, hsh]
    exact hlt

theorem ArrayReadLoopWide_step (SIZE_MAX fuel : Nat) (a : array_t) (bits ret : Nat)
    (h0 : bits ≠ 0) (h1 : ¬ a.buf_size ≤ a.byte_offset) :
    ArrayReadLoopWide SIZE_MAX (fuel + 1) a bits ret =
      if 31 ≤ bits_to_read SIZE_MAX a bits ∨ 32 ≤ a.bit_offset then .error .bad_shift
      else
        match a.buf[a.curptr]? with
        | none => .error .out_of_bounds
        | some byte =>
          ArrayReadLoopWide SIZE_MAX fuel (cursor_step a (bits_to_read SIZE_MAX a bits))
            (bits - bits_to_read SIZE_MAX a bits)
            ((ret <<< bits_to_read SIZE_MAX a bits) |||
              ((byte >>> a.bit_offset) &&& ((1 <<< bits_to_read SIZE_MAX a bits) - 1))) := by
  rw [ArrayReadLoopWide]
  simp only [h0, h1, if_false]

theorem ArrayReadLoop_eq_wide (SIZE_MAX : Nat) :
    ∀ (fuel : Nat) (a : array_t) (bits ret m : Nat), ret < 2 ^ m → m + bits ≤ 32 →
      ArrayReadLoop SIZE_MAX fuel a bits ret = ArrayReadLoopWide SIZE_MAX fuel a bits ret ∧
      ∀ v a1, ArrayReadLoop SIZE_MAX fuel a bits ret = .ok (v, a1) → v < 2 ^ (m + bits) := by
  intro fuel
  induction fuel with
  | zero =>
    intro a bits ret m hret hm
    refine ⟨by simp [ArrayReadLoop, ArrayReadLoopWide], ?_⟩
    intro v a1 h
    simp only [ArrayReadLoop] at h
    split at h
    · simp only [Except.ok.injEq, Prod.mk.injEq] at h
      rw [← h.1]
      exact Nat.lt_of_lt_of_le hret (Nat.pow_le_pow_right (by decide) (by omega))
    · simp at h
  | succ fuel ih =>
    intro a bits ret m hret hm
    have hmono : 2 ^ m ≤ 2 ^ (m + bits) := Nat.pow_le_pow_right (by decide) (by omega)
    by_cases h0 : bits = 0
    · refine ⟨by simp [ArrayReadLoop, ArrayReadLoopWide, h0], ?_⟩
      intro v a1 h
      simp only [ArrayReadLoop, h0, if_true, Except.ok.injEq, Prod.mk.injEq] at h
      rw [← h.1]
      omega
    by_cases h1 : a.buf_size ≤ a.byte_offset
    · refine ⟨by simp [ArrayReadLoop, ArrayReadLoopWide, h0, h1], ?_⟩
      intro v a1 h
      simp only [ArrayReadLoop, h0, h1, if_true, if_false, Except.ok.injEq, Prod.mk.injEq] at h
      rw [← h.1]
      omega
    rw [ArrayReadLoop_step SIZE_MAX fuel a bits ret h0 h1,
      ArrayReadLoopWide_step SIZE_MAX fuel a bits ret h0 h1]
    have hk := bits_to_read_le SIZE_MAX a bits
    by_cases hs : 31 ≤ bits_to_read SIZE_MAX a bits ∨ 32 ≤ a.bit_offset
    · rw [if_pos hs, if_pos hs]
      exact ⟨rfl, fun v a1 h => by simp at h⟩
    · rw [if_neg hs, if_neg hs]
      cases hget : a.buf[a.curptr]? with
      | none => exact ⟨rfl, fun v a1 h => by simp at h⟩
      | some byte =>
        simp only
        obtain ⟨_, hor, _, hlt⟩ :=
          accum_step_wide ret byte a.bit_offset (bits_to_read SIZE_MAX a bits) m hret (by omega)
        rw [← hor]
        have hmk : m + bits_to_read SIZE_MAX a bits + (bits - bits_to_read SIZE_MAX a bits) =
            m + bits := by omega
        have := ih (cursor_step a (bits_to_read SIZE_MAX a bits))
          (bits - bits_to_read SIZE_MAX a bits)
          (accum_step ret byte a.bit_offset (bits_to_read SIZE_MAX a bits))
          (m + bits_to_read SIZE_MAX a bits) hlt (by omega)
        rw [hmk] at this
        exact this

/-- C19: no wraparound in the 32-bit accumulator.  From every reachable cursor
state a read of `n` bits, `n` in 1..32, returns a value below `2 ^ n`, and the same
value and cursor as the loop that computes over unbounded integers and combines
with a bitwise OR.  In an iteration that takes `k` bits while the accumulator holds
`m` bits, `m + k ≤ 32`, the left shift loses no bit and the addition equals the
bitwise OR. -/
theorem ArrayReadToUInt32_no_wraparound (SIZE_MAX : Nat) (h8 : 8 ≤ SIZE_MAX) (buf : List Nat)
    (buf_size : Nat) (hlen : buf_size ≤ buf.length) (a : array_t)
    (hr : Reachable SIZE_MAX buf buf_size a) (n : Nat) (hn1 : 1 ≤ n) (hn : n ≤ 32) :
    (∃ v a1, ArrayReadToUInt32 SIZE_MAX a n = .ok (v, a1) ∧ v < 2 ^ n ∧
      ArrayReadToUInt32Wide SIZE_MAX a n = .ok (v, a1)) ∧
    (∀ ret byte bo k m, ret < 2 ^ m → m + k ≤ 32 →
      (ret <<< k) % 2 ^ 32 = ret <<< k ∧
      accum_step ret byte bo k = (ret <<< k) ||| ((byte >>> bo) &&& ((1 <<< k) - 1))) := by
  obtain ⟨hok, _, _⟩ := Reachable_ok SIZE_MAX h8 buf buf_size hlen a hr
  obtain ⟨v, a1, hrun, _⟩ := ArrayReadToUInt32_ok SIZE_MAX h8 a n hok
  constructor
  · refine ⟨v, a1, hrun, ?_, ?_⟩
    · unfold ArrayReadToUInt32 at hrun
      rw [if_neg (by omega)] at hrun
      have h := (ArrayReadLoop_eq_wide SIZE_MAX (2 * n) a n 0 0 (by decide) (by omega)).2 v a1 hrun
      simpa using h
    · rw [← hrun]
      unfold ArrayReadToUInt32 ArrayReadToUInt32Wide
      rw [if_neg (by omega), if_neg (by omega)]
      exact ((ArrayReadLoop_eq_wide SIZE_MAX (2 * n) a n 0 0 (by decide) (by omega)).1).symm
  · intro ret byte bo k m hret hm
    obtain ⟨h1, h2, _, _⟩ := accum_step_wide ret byte bo k m hret hm
    exact ⟨h1, h2⟩

/-- Witness of C19: a read of 32 bits at byte 0, bit 3 of a five-byte buffer of
bytes 0xFF. -/
theorem ArrayReadToUInt32_no_wraparound_witness :
    ∃ v a1, ArrayReadToUInt32 (2 ^ 64 - 1) ⟨[0xFF, 0xFF, 0xFF, 0xFF, 0xFF], 0, 5, 0, 3⟩ 32 =
        .ok (v, a1) ∧ v < 2 ^ 32 ∧
      ArrayReadToUInt32Wide (2 ^ 64 - 1) ⟨[0xFF, 0xFF, 0xFF, 0xFF, 0xFF], 0, 5, 0, 3⟩ 32 =
        .ok (v, a1) :=
  (ArrayReadToUInt32_no_wraparound (2 ^ 64 - 1) (by decide) [0xFF, 0xFF, 0xFF, 0xFF, 0xFF] 5
    (by decide) ⟨[0xFF, 0xFF, 0xFF, 0xFF, 0xFF], 0, 5, 0, 3⟩ ⟨[3], [7], by decide⟩ 32
    (by decide) (by decide)).1

theorem field_bits_low (x k b : Nat) (hb : b < 2 ^ k) :
    ∀ j, j ≤ k → field_bits j (x * 2 ^ k + b) = field_bits j b := by
  intro j
  induction j with
  | zero => intro _; rfl
  | succ j ih =>
    intro hj
    have ht := Nat.testBit_mul_pow_two_add x hb j
    rw [if_pos (by omega), Nat.mul_comm] at ht
    simp only [field_bits, ht, ih (by omega)]

theorem field_bits_append (x k b : Nat) (hb : b < 2 ^ k) :
    ∀ n, field_bits (n + k) (x * 2 ^ k + b) = field_bits n x ++ field_bits k b := by
  intro n
  induction n with
  | zero =>
    rw [Nat.zero_add, field_bits_low x k b hb k (Nat.le_refl _)]
    rfl
  | succ n ih =>
    have ht := Nat.testBit_mul_pow_two_add x hb (n + k)
    rw [if_neg (by omega), Nat.mul_comm, Nat.add_sub_cancel] at ht
    have e : n + 1 + k = (n + k) + 1 := by omega
    rw [e]
    simp only [field_bits, ht, ih, List.cons_append]

theorem field_bits_length (n v : Nat) : (field_bits n v).length = n := by
  induction n with
  | zero => rfl
  | succ n ih => simp [field_bits, ih]

theorem buffer_bits_length (l : List Nat) : (buffer_bits l).length = 8 * l.length := by
  induction l with
  | nil => rfl
  | cons b bs ih =>
    simp only [buffer_bits, List.length_append, field_bits_length, ih, List.length_cons]
    omega

theorem buffer_bits_append (l1 l2 : List Nat) :
    buffer_bits (l1 ++ l2) = buffer_bits l1 ++ buffer_bits l2 := by
  induction l1 with
  | nil => rfl
  | cons b bs ih =>
    rw [List.cons_append, buffer_bits, buffer_bits, ih, List.append_assoc]

theorem field_bits_be_accum :
    ∀ (bytes : List Nat) (ret m : Nat), ret < 2 ^ m → m + 8 * bytes.length ≤ 32 →
      Bytes bytes →
      field_bits (m + 8 * bytes.length) (be_accum ret bytes) =
        field_bits m ret ++ buffer_bits bytes := by
  intro bytes
  induction bytes with
  | nil =>
    intro ret m _ _ _
    simp [be_accum, buffer_bits]
  | cons b bs ih =>
    intro ret m hret hm hbytes
    have hb : b < 2 ^ 8 := hbytes b (by simp)
    have hbs : Bytes bs := fun c hc => hbytes c (by simp [hc])
    simp only [List.length_cons] at hm
    have hlt : ret * 2 ^ 8 + b < 2 ^ (m + 8) := by
      have h1 : (ret + 1) * 2 ^ 8 ≤ 2 ^ m * 2 ^ 8 := Nat.mul_le_mul_right _ hret
      have h2 : 2 ^ m * 2 ^ 8 = 2 ^ (m + 8) := by rw [Nat.pow_add]
      have h3 : (ret + 1) * 2 ^ 8 = ret * 2 ^ 8 + 2 ^ 8 := by ring
      omega
    have hpow : 2 ^ (m + 8) ≤ 2 ^ 32 := Nat.pow_le_pow_right (by decide) (by omega)
    have hstep : be_accum ret (b :: bs) = be_accum (ret * 2 ^ 8 + b) bs := by
      simp only [be_accum, List.foldl_cons]
      congr 1
      have hb' : b % 256 = b := Nat.mod_eq_of_lt hb
      rw [hb']
      exact Nat.mod_eq_of_lt (by omega)
    have hidx : m + 8 * (bs.length + 1) = (m + 8) + 8 * bs.length := by omega
    rw [hstep, List.length_cons, hidx, ih (ret * 2 ^ 8 + b) (m + 8) hlt (by omega) hbs,
      field_bits_append ret 8 b hb m, buffer_bits, List.append_assoc]

theorem ArrayReadFields_bytes (SIZE_MAX : Nat) (h8 : 8 ≤ SIZE_MAX) :
    ∀ (widths : List Nat) (a : array_t), a.bit_offset = 0 → a.curptr = a.byte_offset →
      a.buf_size ≤ a.buf.length → Bytes a.buf →
      (∀ n ∈ widths, n = 8 ∨ n = 16 ∨ n = 24 ∨ n = 32) →
      8 * a.byte_offset + widths.sum ≤ 8 * a.buf_size →
      ∃ vals a1, ArrayReadFields SIZE_MAX a widths = .ok (vals, a1) ∧
        reassemble widths vals = (buffer_bits (a.buf.drop a.curptr)).take widths.sum := by
  intro widths
  induction widths with
  | nil =>
    intro a _ _ _ _ _ _
    exact ⟨[], a, rfl, by simp [reassemble]⟩
  | cons n ns ih =>
    intro a hbit hptr hlen hbytes hw hsum
    simp only [List.sum_cons] at hsum
    obtain ⟨j, hj1, hj4, rfl⟩ : ∃ j, 1 ≤ j ∧ j ≤ 4 ∧ n = 8 * j := by
      rcases hw n (by simp) with h | h | h | h
      · exact ⟨1, by omega, by omega, by omega⟩
      · exact ⟨2, by omega, by omega, by omega⟩
      · exact ⟨3, by omega, by omega, by omega⟩
      · exact ⟨4, by omega, by omega, by omega⟩
    have hrun := ArrayReadToUInt32_bytes SIZE_MAX h8 j (8 * j) a hj1 hj4 rfl hbit (by omega)
      (by omega)
    obtain ⟨vs, a2, hrun2, hre⟩ := ih (advance_bytes a j) hbit
      (by simp only [advance_bytes]; omega) hlen hbytes (fun m hm => hw m (by simp [hm]))
      (by simp only [advance_bytes]; omega)
    refine ⟨be_accum 0 ((a.buf.drop a.curptr).take j) :: vs, a2,
      by simp only [ArrayReadFields, hrun, hrun2], ?_⟩
    have htl : ((a.buf.drop a.curptr).take j).length = j := by
      rw [List.length_take, List.length_drop]
      omega
    have hbt : Bytes ((a.buf.drop a.curptr).take j) :=
      fun c hc => hbytes c (List.mem_of_mem_drop (List.mem_of_mem_take hc))
    have hfield := field_bits_be_accum ((a.buf.drop a.curptr).take j) 0 0 (by decide)
      (by rw [htl]; omega) hbt
    rw [htl, Nat.zero_add] at hfield
    have hsplit : buffer_bits (a.buf.drop a.curptr) =
        buffer_bits ((a.buf.drop a.curptr).take j) ++ buffer_bits (a.buf.drop (a.curptr + j)) := by
      rw [← buffer_bits_append, ← List.drop_drop, List.take_append_drop]
    have hl8 : (buffer_bits ((a.buf.drop a.curptr).take j)).length = 8 * j := by
      rw [buffer_bits_length, htl]
    have htake : (buffer_bits (a.buf.drop a.curptr)).take (8 * j + ns.sum) =
        buffer_bits ((a.buf.drop a.curptr).take j) ++
          (buffer_bits (a.buf.drop (a.curptr + j))).take ns.sum := by
      rw [hsplit, List.take_append_eq_append_take, hl8, Nat.add_sub_cancel_left]
      congr 1
      exact List.take_of_length_le (by rw [hl8]; omega)
    simp only [advance_bytes] at hre
    rw [reassemble, hfield, hre, List.sum_cons, htake]
    simp [field_bits]

/-- C13 (counterexample): a field of one bit read from the one-byte buffer `0x80`
is 0, because the reader takes the low bit of the byte, while the first bit of the
buffer, most significant bit first, is 1. -/
theorem reassembly_fails_one_bit :
    ∃ vals a, ArrayReadFields (2 ^ 64 - 1) (ArrayInit [0x80] 1) [1] = .ok (vals, a) ∧
      reassemble [1] vals ≠ (buffer_bits [0x80]).take [1].sum :=
  ⟨[0], ⟨[0x80], 0, 1, 0, 1⟩, by decide, by decide⟩

/-- C13 (amended): reassembly for fields that are whole bytes.  For a buffer of
`buf_size` readable bytes and field widths `n_1 .. n_k`, each 8, 16, 24 or 32, with
`n_1 + ... + n_k ≤ 8 * buf_size`, reading the fields in order from a freshly
initialised cursor succeeds, and the fields, each written as a string of `n_i`
bits most significant bit first and concatenated, are the first `n_1 + ... + n_k`
bits of the buffer (bytes in order, each byte most significant bit first). -/
theorem ArrayReadFields_whole_bytes (SIZE_MAX : Nat) (h8 : 8 ≤ SIZE_MAX) (buf : List Nat)
    (buf_size : Nat) (hbytes : Bytes buf) (hlen : buf_size ≤ buf.length) (widths : List Nat)
    (hw : ∀ n ∈ widths, n = 8 ∨ n = 16 ∨ n = 24 ∨ n = 32) (hT : widths.sum ≤ 8 * buf_size) :
    ∃ vals a, ArrayReadFields SIZE_MAX (ArrayInit buf buf_size) widths = .ok (vals, a) ∧
      reassemble widths vals = (buffer_bits buf).take widths.sum := by
  have h := ArrayReadFields_bytes SIZE_MAX h8 widths (ArrayInit buf buf_size) rfl rfl hlen hbytes
    hw (by simpa [ArrayInit] using hT)
  simpa [ArrayInit] using h

/-- Witness of C13 (amended): the fields of the MMR header, 24, 8, 16 and 16 bits. -/
theorem ArrayReadFields_whole_bytes_witness :
    ∃ vals a, ArrayReadFields (2 ^ 64 - 1)
        (ArrayInit [0x4D, 0x4D, 0x52, 0x01, 0x00, 0x04, 0x00, 0x03] 8) [24, 8, 16, 16] =
        .ok (vals, a) ∧
      reassemble [24, 8, 16, 16] vals =
        (buffer_bits [0x4D, 0x4D, 0x52, 0x01, 0x00, 0x04, 0x00, 0x03]).take [24, 8, 16, 16].sum :=
  ArrayReadFields_whole_bytes (2 ^ 64 - 1) (by decide)
    [0x4D, 0x4D, 0x52, 0x01, 0x00, 0x04, 0x00, 0x03] 8 (by decide) (by decide) [24, 8, 16, 16]
    (by decide) (by decide)

/-- C12 (what the code does on the test's round trip): for 16-bit `width`,
`height ≥ 1`, `size_t` of at least 32 bits, an image of `width * height` pixels, any
encoded body and a raster of `width * height` bytes, the header of the test's
encoding decodes to flags 0 and the given dimensions, and `pureg4DecodeImage`,
called with these flags, returns the non-zero value `buf_size - 8` and the all-zero
raster, whatever the body; so an image with a pixel of value 255 is not
reproduced. -/
theorem test_round_trip_zero_raster (SIZE_MAX : Nat) (hmax : 2 ^ 32 - 1 ≤ SIZE_MAX)
    (width height buf_size : Nat) (img body raster : List Nat) (hdr : pureg4_mmrheader_t)
    (hw : 1 ≤ width) (hw16 : width < 2 ^ 16) (hh : 1 ≤ height) (hh16 : height < 2 ^ 16)
    (hbs : 8 < buf_size) (hraster : raster.length = width * height) (hpix : 255 ∈ img) :
    pureg4DecodeMMRHeader SIZE_MAX (some (EncodeImageForTest_header 0 width height ++ body))
        buf_size (some hdr) = .ok (8, some { flags := 0, width := width, height := height }) ∧
    pureg4DecodeImage SIZE_MAX (some (EncodeImageForTest_header 0 width height ++ body))
        (buf_size - 8) width height 0 raster =
      .ok (buf_size - 8, List.replicate (width * height) 0) ∧
    buf_size - 8 ≠ 0 ∧ List.replicate (width * height) 0 ≠ img := by
  have hprod : width * height ≤ 65535 * 65535 := Nat.mul_le_mul (by omega) (by omega)
  refine ⟨?_, ?_, by omega, ?_⟩
  · unfold EncodeImageForTest_header
    simp only [List.cons_append, List.nil_append]
    rw [pureg4DecodeMMRHeader_eight SIZE_MAX (by omega) _ _ _ _ _ _ _ _ body buf_size
      (by omega) hdr]
    have hs : be_accum 0 [0x4D, 0x4D, 0x52] = pureg4_mmrheader_sign := by decide
    simp only [ne_eq, hs, not_true_eq_false, if_false, be_accum_one, be_accum_two]
    have ew : (width / 256 % 256 % 256 * 256 + width % 256 % 256) % 2 ^ 16 = width := by omega
    have eh : (height / 256 % 256 % 256 * 256 + height % 256 % 256) % 2 ^ 16 = height := by
      omega
    have ef : 0 % 256 % 2 ^ 8 = 0 := by decide
    rw [ew, eh, ef]
  · rw [pureg4DecodeImage_flags_zero SIZE_MAX _ (buf_size - 8) width height raster hw
      (by omega) (by omega)]
    have hd : raster.drop (width * height) = [] := List.drop_eq_nil_of_le (by omega)
    rw [hd, List.append_nil]
  · intro h
    rw [← h] at hpix
    have := List.eq_of_mem_replicate hpix
    omega

/-- Witness of C12 at the failing input: the 1 by 1 image with the pixel 255. -/
theorem test_round_trip_zero_raster_witness :
    pureg4DecodeMMRHeader (2 ^ 64 - 1) (some (EncodeImageForTest_header 0 1 1 ++ [0x00, 0x10]))
        10 (some ⟨0, 0, 0⟩) = .ok (8, some { flags := 0, width := 1, height := 1 }) ∧
    pureg4DecodeImage (2 ^ 64 - 1) (some (EncodeImageForTest_header 0 1 1 ++ [0x00, 0x10]))
        (10 - 8) 1 1 0 [7] = .ok (10 - 8, List.replicate (1 * 1) 0) ∧
    10 - 8 ≠ 0 ∧ List.replicate (1 * 1) 0 ≠ [255] :=
  test_round_trip_zero_raster (2 ^ 64 - 1) (by decide) 1 1 10 [255] [0x00, 0x10] [7] ⟨0, 0, 0⟩
    (by decide) (by decide) (by decide) (by decide) (by decide) (by decide) (by decide)

end Pureg4
